import Mathlib

/-
Verification of the implicit interval tree with interpolation index (iitii).

This file shallowly embeds `src/iitii.h` instantiated at `Pos = int` (a
32-bit signed integer, modelled as `Int` with explicit sentinels `PMAX` and
`PMIN` for `std::numeric_limits<Pos>::max()/min()`), and `Item = (Int, Int)`
with `get_beg = fst` and `get_end = snd` (the `intpair` instantiation from
the header's own usage example).  Query results are modelled as lists of
ranks (indices into the sorted node array), the shallow analogue of the
`const Item*` references the C++ code returns.

The floating-point interpolation model (`regress`, `train`, `predict`) only
chooses where a query's bottom-up climb starts; its output is either "no
prediction" (`nrank`) or a real rank (`interpolate` clamps imaginary ranks to
the rightmost real leaf, so the result is `< nodes.size()`).  Queries are
therefore verified for every such predicted start, which covers every
possible behaviour of the model.
-/

namespace Iitii

/-- Maximum representable `Pos` (`std::numeric_limits<int>::max()`); the
reserved `npos` constant of `iit_node_base`. -/
def PMAX : Int := 2 ^ 31 - 1

/-- Minimum representable `Pos` (`std::numeric_limits<int>::min()`); the
negative-infinity sentinel used for `outside_max_end`. -/
def PMIN : Int := -(2 ^ 31)

/-- A node of the (iitii) implicit interval tree: the item's two positions
plus both augment values.  Mirrors `iitii_node` (which extends
`iit_node_base` with `outside_max_end`); for the plain `iit` the
`outside_max_end` field is simply unused. -/
structure Node where
  beg : Int
  endp : Int
  inside_max_end : Int
  outside_max_end : Int
deriving Repr, DecidableEq, Inhabited

/-- Array access `nodes[i]`; total via a default (the C++ code never reads
out of range on the paths we verify). -/
def nd (ns : List Node) (i : Nat) : Node := ns.getD i default

/-- Fuel-bounded count of trailing 1 bits; fuel `r` always suffices for
argument `r` (the count is at most `log2 r + 1 ≤ r` for `r ≥ 1`). -/
def levelGo : Nat → Nat → Nat
  | 0, _ => 0
  | fuel + 1, r => if r % 2 = 1 then levelGo fuel (r / 2) + 1 else 0

/-- Level of a rank: the number of trailing 1 bits (`iit_base::level`,
which computes `__builtin_ctzll(~node)`). -/
def level (r : Nat) : Nat := levelGo r r

/-- Parent of a non-root node (`iit_base::parent`, non-root branch):
if bit `k+1` is set the node is a right child (`node - 2^k`), else a left
child (`node + 2^k`). -/
def parentArith (node k : Nat) : Nat :=
  if (node >>> (k + 1)) &&& 1 = 1 then node - 2 ^ k else node + 2 ^ k

/-- Left child (`iit_base::left`); callers always have `k ≥ 1`. -/
def leftc (node k : Nat) : Nat := node - 2 ^ (k - 1)

/-- Right child (`iit_base::right`); callers always have `k ≥ 1`. -/
def rightc (node k : Nat) : Nat := node + 2 ^ (k - 1)

/-- Leftmost leaf under a level-`k` subtree root (`iit_base::leftmost_leaf`). -/
def lml (subtree k : Nat) : Nat := subtree - (2 ^ k - 1)

/-- Rightmost leaf under a level-`k` subtree root (`iit_base::rightmost_leaf`). -/
def rml (subtree k : Nat) : Nat := subtree + (2 ^ k - 1)

/-- The root-level loop of the `iit_base` constructor after its forced first
iteration: increase `rl` while `2^(rl+1) - 1 < N`; the fuel (`N` iterations)
always suffices, because `2^(N+1) - 1 ≥ N`. -/
def geomGo : Nat → Nat → Nat → Nat
  | 0, _, rl => rl
  | fuel + 1, N, rl => if 2 ^ (rl + 1) - 1 < N then geomGo fuel N (rl + 1) else rl

/-- Root level computed by the `iit_base` constructor: `root_level = 0` for
an empty index, else the loop runs at least once starting from
`root_level = 1, full_size = 3`. -/
def rootLevel (N : Nat) : Nat := if N = 0 then 0 else geomGo N N 1

/-- Size of the full binary tree (`full_size`): `0` for an empty index, else
`2^(root_level+1) - 1`. -/
def fullSize (N : Nat) : Nat := if N = 0 then 0 else 2 ^ (rootLevel N + 1) - 1

/-- Rank of the root: `2^root_level - 1`. -/
def rootRank (N : Nat) : Nat := 2 ^ rootLevel N - 1

/-- Rank of the `ofs`-th node on level `k` (`iitii::rank_of_levelrank`:
`(1<<k)*(2*ofs+1)-1`). -/
def rank_of_levelrank (k ofs : Nat) : Nat := 2 ^ k * (2 * ofs + 1) - 1

/-- Rank of a node within its level (`iitii::levelrank_of_rank`:
`((r+1)/(1<<level(r))-1)/2`). -/
def levelrank_of_rank (r : Nat) : Nat := ((r + 1) / 2 ^ level r - 1) / 2

/-- Lower end of the rank range of `r`'s subtree (= `leftmost_leaf2 r`). -/
def sLo (r : Nat) : Nat := r - (2 ^ level r - 1)

/-- Upper end of the rank range of `r`'s subtree (= `rightmost_leaf2 r`). -/
def sHi (r : Nat) : Nat := r + (2 ^ level r - 1)

/-- Membership of rank `m` in the subtree rooted at rank `r` (`r` itself
included); in the implicit tree this is exactly the rank interval
`[leftmost_leaf2 r, rightmost_leaf2 r]`. -/
def inSubtree (r m : Nat) : Prop := sLo r ≤ m ∧ m ≤ sHi r

instance (r m : Nat) : Decidable (inSubtree r m) :=
  inferInstanceAs (Decidable (_ ∧ _))

/-- Level-`k` ancestor of rank `x` (proof helper, not part of the source
embedding): the unique level-`k` node whose subtree contains `x`, for any
`x` with `level x ≤ k`. -/
def ancK (x k : Nat) : Nat := 2 ^ (k + 1) * (x / 2 ^ (k + 1)) + (2 ^ k - 1)

/-! ### Building the index -/

/-- Wrap an item into a fresh node (`iit_node_base` / `iitii_node`
constructors: `inside_max_end` starts as the item's end,
`outside_max_end` as the minimum `Pos`). -/
def mkNode (it : Int × Int) : Node :=
  { beg := it.1, endp := it.2, inside_max_end := it.2, outside_max_end := PMIN }

/-- The sort order of `iit_node_base::operator<` (as the corresponding
non-strict total preorder `¬(b < a)`): by `beg`, ties by `end`. -/
def nodeLe (a b : Node) : Prop :=
  a.beg < b.beg ∨ (a.beg = b.beg ∧ a.endp ≤ b.endp)

instance : DecidableRel nodeLe := fun a b =>
  inferInstanceAs (Decidable (_ ∨ _))

instance : IsTotal Node nodeLe where
  total a b := by
    unfold nodeLe
    rcases lt_trichotomy a.beg b.beg with h | h | h
    · exact Or.inl (Or.inl h)
    · rcases le_total a.endp b.endp with h2 | h2
      · exact Or.inl (Or.inr ⟨h, h2⟩)
      · exact Or.inr (Or.inr ⟨h.symm, h2⟩)
    · exact Or.inr (Or.inl h)

instance : IsTrans Node nodeLe where
  trans a b c hab hbc := by
    unfold nodeLe at *
    rcases hab with h | ⟨h, h'⟩ <;> rcases hbc with g | ⟨g, g'⟩
    · exact Or.inl (h.trans g)
    · exact Or.inl (g ▸ h)
    · exact Or.inl (h ▸ g)
    · exact Or.inr ⟨h.trans g, h'.trans g'⟩

/-- The builder's `build()` front half: wrap all items and sort them
(`std::sort` with `iit_node_base::operator<`; any such sort produces this
unique `nodeLe`-sorted permutation, since `nodeLe`-ties are equal records). -/
def sortNodes (items : List (Int × Int)) : List Node :=
  List.insertionSort nodeLe (items.map mkNode)

/-- Ranks of the real level-`k` nodes in increasing order: the inner loop of
the bottom-up pass iterates `n = 2^k - 1, n += 2^(k+1)` while `n < N`,
i.e. exactly the `n < N` with `n % 2^(k+1) = 2^k - 1`. -/
def levelRanks (N k : Nat) : List Nat :=
  (List.range N).filter (fun n => decide (n % 2 ^ (k + 1) = 2 ^ k - 1))

/-- The `right_border_nodes` walk: from the rightmost real leaf, repeatedly
take `parent2` until the root; `fuel` bounds the walk (the constructor's
loop needs exactly `root_level` steps). -/
def borderAux (root : Nat) : Nat → Nat → List Nat
  | cur, 0 => [cur]
  | cur, fuel + 1 =>
    if cur = root then [cur]
    else cur :: borderAux root (parentArith cur (level cur)) fuel

/-- The memoized path from the rightmost real leaf
(`nodes.size() - (2 - nodes.size() % 2)`) up to the root. -/
def rightBorderNodes (N : Nat) : List Nat :=
  borderAux (rootRank N) (N - (2 - N % 2)) (rootLevel N)

/-- One step of the bottom-up `inside_max_end` pass (the body of the inner
loop of the `iit_base` constructor), acting on the array and the running
`right_border_ime`. -/
def imeStep (k borderK : Nat) (acc : List Node × Int) (n : Nat) : List Node × Int :=
  let ns := acc.1
  let rbi := acc.2
  let node := nd ns n
  let ime1 := max node.endp (nd ns (leftc n k)).inside_max_end
  let ime :=
    if rightc n k < ns.length then max ime1 (nd ns (rightc n k)).inside_max_end
    else max ime1 rbi
  (ns.set n { node with inside_max_end := ime }, if n = borderK then ime else rbi)

/-- The bottom-up indexing pass of the `iit_base` constructor: for each level
`k = 1 .. root_level`, update every real level-`k` node, threading the
running right-border `inside_max_end`. -/
def buildIme (ns0 : List Node) : List Node :=
  if ns0.length = 0 then ns0
  else
    let borders := rightBorderNodes ns0.length
    ((List.range' 1 (rootLevel ns0.length)).foldl
      (fun acc k => (levelRanks ns0.length k).foldl (imeStep k (borders.getD k 0)) acc)
      (ns0, (nd ns0 (borders.getD 0 0)).inside_max_end)).1

/-- The `running_max_end` prefix maxima of the iitii constructor:
`runMax ns i = max(end(0), …, end(i))`. -/
def runMax (ns : List Node) : Nat → Int
  | 0 => (nd ns 0).endp
  | i + 1 => max (runMax ns i) (nd ns (i + 1)).endp

/-- The leftward walk of the iitii constructor: starting at an index, step
left while the node's `beg` equals `b`, stopping at 0.  (`Rank leq = l-1;
while (nodes[leq].beg() == node.beg()) { if (leq == 0) break; --leq; }`). -/
def walkLeq (ns : List Node) (b : Int) : Nat → Nat
  | 0 => 0
  | leq + 1 => if (nd ns (leq + 1)).beg = b then walkLeq ns b leq else leq + 1

/-- The `outside_max_end` fill of the iitii constructor.  The C++ loop
mutates `nodes[n].outside_max_end` in place while reading only `beg`/`end`
fields (which the loop never writes), so it equals this per-rank map. -/
def fillOutside (ns : List Node) : List Node :=
  (List.range ns.length).map (fun n =>
    let node := nd ns n
    let l := lml n (level n)
    if 0 < l then
      let leq := walkLeq ns node.beg (l - 1)
      { node with outside_max_end :=
          if (nd ns leq).beg < node.beg then runMax ns leq else PMIN }
    else node)

/-- Build the plain implicit interval tree (`iit::builder::build()`):
sort, then run the `iit_base` constructor's bottom-up pass. -/
def buildIit (items : List (Int × Int)) : List Node :=
  buildIme (sortNodes items)

/-- Build the iitii index (`iitii::builder::build(domains)`): the `iit_base`
pass followed by the `outside_max_end` fill.  (Training the interpolation
model only produces the query-time start prediction, handled as a parameter
of `iitiiOverlapP`.) -/
def buildIitii (items : List (Int × Int)) : List Node :=
  fillOutside (buildIme (sortNodes items))

/-! ### Queries -/

/-- The unrolled low-level traversal of `iit_base::scan` (`k <= 2` branch):
walk the leaf range in rank order, stopping at the first node with
`beg ≥ qend`; collect nodes with `end > qbeg`; cost counts the nodes walked
before the stop. -/
def scanLow (ns : List Node) (qbeg qend : Int) : List Nat → Nat × List Nat
  | [] => (0, [])
  | r :: rs =>
    if qend ≤ (nd ns r).beg then (0, [])
    else
      let rest := scanLow ns qbeg qend rs
      (rest.1 + 1, if qbeg < (nd ns r).endp then r :: rest.2 else rest.2)

/-- Top-down overlap scan (`iit_base::scan`), by recursion on the level.
Returns `(cost, ranks)` where cost is the number of tree nodes visited and
ranks are the reported results in the order the C++ code pushes them. -/
def scanGo (ns : List Node) (qbeg qend : Int) : Nat → Nat → Nat × List Nat
  | 0, subtree =>
    if ns.length ≤ subtree then (1, [])
    else
      scanLow ns qbeg qend
        (List.range' (lml subtree 0) (min (rml subtree 0) (ns.length - 1) + 1 - lml subtree 0))
  | k + 1, subtree =>
    if ns.length ≤ subtree then
      -- imaginary node: the right subtree is all imaginary, descend left only
      let sub := scanGo ns qbeg qend k (leftc subtree (k + 1))
      (1 + sub.1, sub.2)
    else if k + 1 ≤ 2 then
      scanLow ns qbeg qend
        (List.range' (lml subtree (k + 1))
          (min (rml subtree (k + 1)) (ns.length - 1) + 1 - lml subtree (k + 1)))
    else
      -- textbook recursive search
      let node := nd ns subtree
      if qbeg < node.inside_max_end then
        let cl := scanGo ns qbeg qend k (leftc subtree (k + 1))
        if node.beg < qend then
          let cr := scanGo ns qbeg qend k (rightc subtree (k + 1))
          (1 + cl.1 + cr.1, cl.2 ++ (if qbeg < node.endp then subtree :: cr.2 else cr.2))
        else (1 + cl.1, cl.2)
      else (1, [])

/-- Root-start overlap query (`iit_base::overlap`). -/
def iitOverlap (ns : List Node) (qbeg qend : Int) : Nat × List Nat :=
  scanGo ns qbeg qend (rootLevel ns.length) (rootRank ns.length)

/-- Constant-time `outside_min_beg` (`iitii::outside_min_beg`): `beg` of the
node ranked just past the subtree's rightmost leaf, with the shared-`beg`
corner case checked first.  (For `N = 0` the C++ index test under/overflows;
the function is only ever called with `N ≥ 1`.) -/
def outsideMinBeg (ns : List Node) (subtree k : Nat) : Int :=
  let r := rml subtree k
  let beg := (nd ns subtree).beg
  let l := lml subtree k
  if 0 < l ∧ (nd ns (l - 1)).beg = beg then beg
  else if r < ns.length - 1 then (nd ns (r + 1)).beg else PMAX

/-- The climb-continuation test of `iitii::overlap`: keep climbing while the
node is imaginary, or an outside node with smaller `beg` may reach the
query, or an outside node with larger `beg` may start before the query's
end. -/
def climbCond (ns : List Node) (qbeg qend : Int) (subtree k : Nat) : Bool :=
  decide (ns.length ≤ subtree) ||
    decide (qbeg < (nd ns subtree).outside_max_end) ||
    decide (outsideMinBeg ns subtree k < qend)

/-- The climb loop of `iitii::overlap`, with explicit fuel: climb to the
parent while below the root and `climbCond` holds.  Fuel
`root_level - level(start)` always suffices (proved below), so with that
fuel this is exactly the C++ `while` loop. -/
def climbGo (ns : List Node) (root : Nat) (qbeg qend : Int) :
    Nat → Nat → Nat → Nat × Nat
  | 0, subtree, k => (subtree, k)
  | fuel + 1, subtree, k =>
    if subtree ≠ root ∧ climbCond ns qbeg qend subtree k then
      climbGo ns root qbeg qend fuel (parentArith subtree k) (k + 1)
    else (subtree, k)

/-- The iitii overlap query (`iitii::overlap`) given the model's prediction:
`none` models `predict` returning `nrank` (fall back to a root scan); `some
p` models a predicted start rank `p` (always `< nodes.size()`, which is what
`interpolate` guarantees).  Returns `(cost, ranks)` with the climb cost
tripled as in the source. -/
def iitiiOverlapP (ns : List Node) (pred : Option Nat) (qbeg qend : Int) :
    Nat × List Nat :=
  match pred with
  | none => iitOverlap ns qbeg qend
  | some p =>
    let k0 := level p
    let res := climbGo ns (rootRank ns.length) qbeg qend (rootLevel ns.length - k0) p k0
    let s := scanGo ns qbeg qend res.2 res.1
    (s.1 + 3 * (res.2 - k0), s.2)

/-! ### Arithmetic of levels -/

theorem two_pow_pos (k : Nat) : 0 < 2 ^ k := pow_pos (by norm_num) k

theorem levelGo_zero_arg : ∀ fuel, levelGo fuel 0 = 0 := by
  intro fuel
  cases fuel with
  | zero => rfl
  | succ fuel => rw [levelGo]; norm_num

theorem levelGo_congr : ∀ f1 f2 r, r ≤ f1 → r ≤ f2 → levelGo f1 r = levelGo f2 r := by
  intro f1
  induction f1 with
  | zero =>
    intro f2 r h1 _
    have : r = 0 := by omega
    subst this
    rw [levelGo_zero_arg, levelGo_zero_arg]
  | succ f1 ih =>
    intro f2 r h1 h2
    cases f2 with
    | zero =>
      have : r = 0 := by omega
      subst this
      rw [levelGo_zero_arg, levelGo_zero_arg]
    | succ f2 =>
      rw [levelGo, levelGo]
      by_cases h : r % 2 = 1
      · rw [if_pos h, if_pos h, ih f2 (r / 2) (by omega) (by omega)]
      · rw [if_neg h, if_neg h]

theorem level_of_even (r : Nat) (h : r % 2 = 0) : level r = 0 := by
  cases r with
  | zero => rfl
  | succ m =>
    show levelGo (m + 1) (m + 1) = 0
    rw [levelGo, if_neg (by omega)]

theorem level_of_odd (r : Nat) (h : r % 2 = 1) : level r = level (r / 2) + 1 := by
  cases r with
  | zero => omega
  | succ m =>
    show levelGo (m + 1) (m + 1) = levelGo ((m + 1) / 2) ((m + 1) / 2) + 1
    rw [levelGo, if_pos h]
    congr 1
    exact levelGo_congr m ((m + 1) / 2) ((m + 1) / 2) (by omega) (le_refl _)

/-- Characterization of `level`: a rank has level `k` iff its residue mod
`2^(k+1)` is `2^k - 1` (bits `0..k-1` set, bit `k` clear). -/
theorem level_eq_iff (r k : Nat) : level r = k ↔ r % 2 ^ (k + 1) = 2 ^ k - 1 := by
  induction k generalizing r with
  | zero =>
    simp only [pow_one, pow_zero]
    constructor
    · intro h
      rcases Nat.mod_two_eq_zero_or_one r with h2 | h2
      · omega
      · rw [level_of_odd r h2] at h
        omega
    · intro h
      exact level_of_even r (by omega)
  | succ k ih =>
    have hp : 0 < 2 ^ k := two_pow_pos k
    have hp1 : (2:Nat) ^ (k + 1) = 2 * 2 ^ k := by ring
    have hp2 : (2:Nat) ^ (k + 2) = 2 * 2 ^ (k + 1) := by ring
    rcases Nat.mod_two_eq_zero_or_one r with h2 | h2
    · -- even rank: level is 0 and the residue is even, so both sides fail
      have hL : level r = 0 := level_of_even r h2
      have hmm : r % 2 ^ (k + 2) % 2 = r % 2 := Nat.mod_mod_of_dvd r ⟨2 ^ (k + 1), hp2⟩
      constructor
      · intro h; omega
      · intro h
        rw [h] at hmm
        have : 0 < 2 ^ (k+1) := two_pow_pos (k+1)
        omega
    · -- odd rank: divide by two and use the inductive hypothesis
      have hL : level r = level (r / 2) + 1 := level_of_odd r h2
      have hdecomp : r = 2 * (r / 2) + 1 := by omega
      have hmod : r % 2 ^ (k + 2) = 2 * (r / 2 % 2 ^ (k + 1)) + 1 := by
        conv_lhs => rw [hdecomp, hp2]
        rw [Nat.add_mod, Nat.mul_mod_mul_left]
        have hlt : 2 * (r / 2 % 2 ^ (k + 1)) + 1 % (2 * 2 ^ (k+1)) < 2 * 2 ^ (k + 1) := by
          have := Nat.mod_lt (r / 2) (two_pow_pos (k+1))
          have : 1 % (2 * 2 ^ (k+1)) = 1 := Nat.mod_eq_of_lt (by
            have := two_pow_pos (k+1); omega)
          omega
        rw [Nat.mod_eq_of_lt]
        · congr 1
          exact Nat.mod_eq_of_lt (by have := two_pow_pos (k+1); omega)
        · have h1 : 1 % (2 * 2 ^ (k+1)) = 1 := Nat.mod_eq_of_lt (by
            have := two_pow_pos (k+1); omega)
          rw [h1]
          have := Nat.mod_lt (r / 2) (two_pow_pos (k+1))
          omega
      rw [hL, hmod]
      have hiff := ih (r / 2)
      have h2k : 0 < 2 ^ (k+1) := two_pow_pos (k+1)
      constructor
      · intro h
        have : level (r / 2) = k := by omega
        have := hiff.mp this
        omega
      · intro h
        have : r / 2 % 2 ^ (k + 1) = 2 ^ k - 1 := by omega
        have := hiff.mpr this
        omega

/-- A rank below `2^(K+1) - 1` has level at most `K`. -/
theorem level_le_of_lt (x K : Nat) (h : x < 2 ^ (K + 1) - 1) : level x ≤ K := by
  by_contra hgt
  push_neg at hgt
  have hx : x % 2 ^ (level x + 1) = 2 ^ level x - 1 := (level_eq_iff x (level x)).mp rfl
  have h1 : 2 ^ level x - 1 ≤ x := hx ▸ Nat.mod_le x (2 ^ (level x + 1))
  have h2 : 2 ^ (K + 1) ≤ 2 ^ level x := Nat.pow_le_pow_right (by norm_num) hgt
  have := two_pow_pos (level x)
  omega

/-- The only rank below `2^(K+1) - 1` with level `K` is `2^K - 1`. -/
theorem eq_root_of_level (x K : Nat) (hlt : x < 2 ^ (K + 1) - 1) (hK : level x = K) :
    x = 2 ^ K - 1 := by
  have hx := (level_eq_iff x K).mp hK
  have hdiv : x = 2 ^ (K + 1) * (x / 2 ^ (K + 1)) + (2 ^ K - 1) := by
    conv_lhs => rw [← Nat.div_add_mod x (2 ^ (K + 1))]
    omega
  have h0 : x / 2 ^ (K + 1) = 0 := Nat.div_eq_of_lt (by omega)
  rw [h0, Nat.mul_zero, Nat.zero_add] at hdiv
  exact hdiv

theorem level_two_pow_sub_one (k : Nat) : level (2 ^ k - 1) = k := by
  rw [level_eq_iff]
  have h1 : (2:Nat) ^ (k+1) = 2 * 2 ^ k := by ring
  have := two_pow_pos k
  exact Nat.mod_eq_of_lt (by omega)

/-- For positive `m` and `t`, the predecessor of the multiple `m*t` has
residue `m - 1` mod `m`. -/
theorem pred_mul_mod (m t : Nat) (hm : 0 < m) (ht : 0 < t) : (m * t - 1) % m = m - 1 := by
  have hmul : m * t = m * (t - 1) + m := by
    cases t with
    | zero => omega
    | succ t' => simp [Nat.mul_succ]
  have hdecomp : m * t - 1 = m * (t - 1) + (m - 1) := by omega
  rw [hdecomp, Nat.mul_add_mod]
  exact Nat.mod_eq_of_lt (by omega)

/-- If `level x ≤ k` then the residue of `x` mod `2^(k+1)` stays below
`2^(k+1) - 1` (bit pattern not all ones). -/
theorem mod_lt_of_level_le (x k : Nat) (h : level x ≤ k) :
    x % 2 ^ (k + 1) < 2 ^ (k + 1) - 1 := by
  set j := level x with hj
  have hx : x % 2 ^ (j + 1) = 2 ^ j - 1 := (level_eq_iff x j).mp rfl
  by_contra hge
  push_neg at hge
  have heq : x % 2 ^ (k + 1) = 2 ^ (k + 1) - 1 := by
    have := Nat.mod_lt x (two_pow_pos (k + 1)); omega
  obtain ⟨c, hc⟩ : (2:Nat) ^ (j + 1) ∣ 2 ^ (k + 1) := pow_dvd_pow 2 (by omega)
  have hc1 : 0 < c := by
    rcases Nat.eq_zero_or_pos c with h0 | h1
    · subst h0
      rw [Nat.mul_zero] at hc
      have := two_pow_pos (k+1); omega
    · exact h1
  have hmm : x % 2 ^ (j + 1) = (x % 2 ^ (k + 1)) % 2 ^ (j + 1) :=
    (Nat.mod_mod_of_dvd x ⟨c, hc⟩).symm
  rw [heq, hc, pred_mul_mod _ _ (two_pow_pos (j+1)) hc1] at hmm
  have h2j : (2:Nat) ^ (j+1) = 2 * 2 ^ j := by ring
  have := two_pow_pos j
  omega

/-! ### Ancestors, subtrees, parents, children -/

theorem level_decomp (y k : Nat) (h : level y = k) :
    y = 2 ^ (k + 1) * (y / 2 ^ (k + 1)) + (2 ^ k - 1) := by
  have hx := (level_eq_iff y k).mp h
  conv_lhs => rw [← Nat.div_add_mod y (2 ^ (k + 1))]
  omega

theorem ancK_div (x k : Nat) : ancK x k / 2 ^ (k + 1) = x / 2 ^ (k + 1) := by
  unfold ancK
  rw [Nat.mul_add_div (two_pow_pos (k + 1))]
  have h1 : (2:Nat) ^ (k+1) = 2 * 2 ^ k := by ring
  have := two_pow_pos k
  have : (2 ^ k - 1) / 2 ^ (k + 1) = 0 := Nat.div_eq_of_lt (by omega)
  omega

theorem level_ancK (x k : Nat) : level (ancK x k) = k := by
  rw [level_eq_iff]
  unfold ancK
  rw [Nat.mul_add_mod]
  have h1 : (2:Nat) ^ (k+1) = 2 * 2 ^ k := by ring
  have := two_pow_pos k
  exact Nat.mod_eq_of_lt (by omega)

theorem sLo_eq (y k : Nat) (h : level y = k) :
    sLo y = 2 ^ (k + 1) * (y / 2 ^ (k + 1)) := by
  have hd := level_decomp y k h
  unfold sLo
  rw [h]
  omega

theorem sHi_eq (y k : Nat) (h : level y = k) :
    sHi y = 2 ^ (k + 1) * (y / 2 ^ (k + 1)) + (2 ^ (k + 1) - 2) := by
  have hd := level_decomp y k h
  have h1 : (2:Nat) ^ (k+1) = 2 * 2 ^ k := by ring
  have := two_pow_pos k
  unfold sHi
  rw [h]
  omega

/-- Subtree membership expressed through division: same `2^(k+1)` block, and
not the all-ones residue. -/
theorem inSubtree_iff_div (y k m : Nat) (h : level y = k) :
    inSubtree y m ↔ m / 2 ^ (k + 1) = y / 2 ^ (k + 1) ∧ m % 2 ^ (k + 1) < 2 ^ (k + 1) - 1 := by
  have hm := Nat.div_add_mod m (2 ^ (k + 1))
  have hmlt := Nat.mod_lt m (two_pow_pos (k + 1))
  have h2 : 2 ≤ 2 ^ (k + 1) := by
    have h1 : (2:Nat) ^ (k+1) = 2 * 2 ^ k := by ring
    have := two_pow_pos k
    omega
  unfold inSubtree
  rw [sLo_eq y k h, sHi_eq y k h]
  constructor
  · rintro ⟨h1, h2'⟩
    have hdiv : m / 2 ^ (k + 1) = y / 2 ^ (k + 1) := by
      apply Nat.div_eq_of_lt_le
      · rw [Nat.mul_comm]
        exact h1
      · have e : (y / 2 ^ (k + 1) + 1) * 2 ^ (k + 1)
            = 2 ^ (k + 1) * (y / 2 ^ (k + 1)) + 2 ^ (k + 1) := by ring
        omega
    refine ⟨hdiv, ?_⟩
    rw [hdiv] at hm
    omega
  · rintro ⟨h1, h2'⟩
    rw [h1] at hm
    omega

theorem inSubtree_self (y : Nat) : inSubtree y y := by
  constructor
  · exact Nat.sub_le _ _
  · exact Nat.le_add_right _ _

theorem inSubtree_self_anc (x k : Nat) (h : level x ≤ k) : inSubtree (ancK x k) x := by
  rw [inSubtree_iff_div _ k _ (level_ancK x k), ancK_div]
  exact ⟨rfl, mod_lt_of_level_le x k h⟩

theorem subtree_unique (y k m : Nat) (hy : level y = k) (hm : inSubtree y m) :
    y = ancK m k := by
  have hd := level_decomp y k hy
  have hdiv := ((inSubtree_iff_div y k m hy).mp hm).1
  unfold ancK
  rw [hdiv]
  omega

/-- Rank arithmetic of `parent`: on a level-`k` node it lands exactly on the
level-`(k+1)` ancestor. -/
theorem parentArith_eq_ancK (y k : Nat) (h : level y = k) :
    parentArith y k = ancK y (k + 1) := by
  have hd := level_decomp y k h
  set q := y / 2 ^ (k + 1) with hq
  have hqq := Nat.div_add_mod q 2
  have hdd : y / 2 ^ (k + 1 + 1) = q / 2 := by
    have e : (2:Nat) ^ (k + 1) * 2 = 2 ^ (k + 1 + 1) := by ring
    rw [hq, ← e, ← Nat.div_div_eq_div_mul]
  have hbit : y >>> (k + 1) &&& 1 = q % 2 := by
    rw [Nat.shiftRight_eq_div_pow, Nat.and_one_is_mod]
  have e1 : (2:Nat) ^ (k + 1) * q = 2 ^ (k + 1 + 1) * (q / 2) + 2 ^ (k + 1) * (q % 2) := by
    conv_lhs => rw [← Nat.div_add_mod q 2]
    ring
  have e2 : (2:Nat) ^ (k + 1 + 1) = 2 * 2 ^ (k + 1) := by ring
  have e3 : (2:Nat) ^ (k + 1) = 2 * 2 ^ k := by ring
  have := two_pow_pos k
  unfold parentArith ancK
  rw [hbit, hdd]
  rcases Nat.mod_two_eq_zero_or_one q with hq2 | hq2
  · rw [hq2]
    simp only [Nat.zero_ne_one, if_false]
    rw [hq2, Nat.mul_zero] at e1
    omega
  · rw [hq2]
    simp only [if_true]
    rw [hq2, Nat.mul_one] at e1
    omega

theorem level_parentArith (y k : Nat) (h : level y = k) :
    level (parentArith y k) = k + 1 := by
  rw [parentArith_eq_ancK y k h]
  exact level_ancK y (k + 1)

theorem ancK_congr (a b k : Nat) (h : a / 2 ^ (k + 1) = b / 2 ^ (k + 1)) :
    ancK a k = ancK b k := by
  unfold ancK
  rw [h]

theorem ancK_ancK (x k : Nat) : ancK (ancK x k) (k + 1) = ancK x (k + 1) := by
  apply ancK_congr
  have e : (2:Nat) ^ (k + 1) * 2 = 2 ^ (k + 1 + 1) := by ring
  rw [← e, ← Nat.div_div_eq_div_mul, ← Nat.div_div_eq_div_mul, ancK_div]

/-- Climbing the `ancK` ladder: the parent of `ancK y k` (`level y = k`) is
`ancK y (k+1)`. -/
theorem parentArith_ancK_chain (x j : Nat) :
    parentArith (ancK x j) j = ancK x (j + 1) := by
  rw [parentArith_eq_ancK _ j (level_ancK x j), ancK_ancK]

/-! Children of a level-`(k+1)` node. -/

theorem leftc_decomp (y k : Nat) (h : level y = k + 1) :
    leftc y (k + 1) = 2 ^ (k + 2) * (y / 2 ^ (k + 2)) + (2 ^ k - 1) := by
  have hd := level_decomp y (k + 1) h
  rw [show k + 1 + 1 = k + 2 from rfl] at hd
  have e3 : (2:Nat) ^ (k + 1) = 2 * 2 ^ k := by ring
  have := two_pow_pos k
  unfold leftc
  simp only [Nat.add_sub_cancel]
  omega

theorem rightc_decomp (y k : Nat) (h : level y = k + 1) :
    rightc y (k + 1) = 2 ^ (k + 1) * (2 * (y / 2 ^ (k + 2)) + 1) + (2 ^ k - 1) := by
  have hd := level_decomp y (k + 1) h
  rw [show k + 1 + 1 = k + 2 from rfl] at hd
  have e1 : (2:Nat) ^ (k + 1) * (2 * (y / 2 ^ (k + 2)) + 1)
      = 2 ^ (k + 2) * (y / 2 ^ (k + 2)) + 2 ^ (k + 1) := by ring
  have e3 : (2:Nat) ^ (k + 1) = 2 * 2 ^ k := by ring
  have := two_pow_pos k
  unfold rightc
  simp only [Nat.add_sub_cancel]
  omega

theorem level_leftc (y k : Nat) (h : level y = k + 1) :
    level (leftc y (k + 1)) = k := by
  rw [level_eq_iff, leftc_decomp y k h]
  have e2 : (2:Nat) ^ (k + 2) = 2 ^ (k + 1) * 2 := by ring
  rw [e2, Nat.mul_assoc, Nat.mul_add_mod]
  have e3 : (2:Nat) ^ (k + 1) = 2 * 2 ^ k := by ring
  have := two_pow_pos k
  exact Nat.mod_eq_of_lt (by omega)

theorem level_rightc (y k : Nat) (h : level y = k + 1) :
    level (rightc y (k + 1)) = k := by
  rw [level_eq_iff, rightc_decomp y k h, Nat.mul_add_mod]
  have e3 : (2:Nat) ^ (k + 1) = 2 * 2 ^ k := by ring
  have := two_pow_pos k
  exact Nat.mod_eq_of_lt (by omega)

theorem leftc_bounds (y k : Nat) (h : level y = k + 1) :
    sLo (leftc y (k + 1)) = sLo y ∧ sHi (leftc y (k + 1)) = y - 1 := by
  have hd := level_decomp y (k + 1) h
  rw [show k + 1 + 1 = k + 2 from rfl] at hd
  have hl := leftc_decomp y k h
  have hL := level_leftc y k h
  have hsl := sLo_eq _ k hL
  have hsh := sHi_eq _ k hL
  have hdiv : leftc y (k + 1) / 2 ^ (k + 1) = 2 * (y / 2 ^ (k + 2)) := by
    rw [hl]
    have e2 : (2:Nat) ^ (k + 2) * (y / 2 ^ (k + 2))
        = 2 ^ (k + 1) * (2 * (y / 2 ^ (k + 2))) := by ring
    rw [e2, Nat.mul_add_div (two_pow_pos (k + 1))]
    have e3 : (2:Nat) ^ (k + 1) = 2 * 2 ^ k := by ring
    have := two_pow_pos k
    have : (2 ^ k - 1) / 2 ^ (k + 1) = 0 := Nat.div_eq_of_lt (by omega)
    omega
  have hsly := sLo_eq y (k + 1) h
  rw [show k + 1 + 1 = k + 2 from rfl] at hsly
  rw [hsl, hsh, hdiv, hsly]
  have e1 : (2:Nat) ^ (k + 1) * (2 * (y / 2 ^ (k + 2))) = 2 ^ (k + 2) * (y / 2 ^ (k + 2)) := by
    ring
  have e3 : (2:Nat) ^ (k + 1) = 2 * 2 ^ k := by ring
  have := two_pow_pos k
  omega

theorem rightc_bounds (y k : Nat) (h : level y = k + 1) :
    sLo (rightc y (k + 1)) = y + 1 ∧ sHi (rightc y (k + 1)) = sHi y := by
  have hd := level_decomp y (k + 1) h
  rw [show k + 1 + 1 = k + 2 from rfl] at hd
  have hr := rightc_decomp y k h
  have hL := level_rightc y k h
  have hsl := sLo_eq _ k hL
  have hsh := sHi_eq _ k hL
  have hdiv : rightc y (k + 1) / 2 ^ (k + 1) = 2 * (y / 2 ^ (k + 2)) + 1 := by
    rw [hr, Nat.mul_add_div (two_pow_pos (k + 1))]
    have e3 : (2:Nat) ^ (k + 1) = 2 * 2 ^ k := by ring
    have := two_pow_pos k
    have : (2 ^ k - 1) / 2 ^ (k + 1) = 0 := Nat.div_eq_of_lt (by omega)
    omega
  have hshy := sHi_eq y (k + 1) h
  rw [show k + 1 + 1 = k + 2 from rfl] at hshy
  rw [hsl, hsh, hdiv, hshy]
  have e1 : (2:Nat) ^ (k + 1) * (2 * (y / 2 ^ (k + 2)) + 1)
      = 2 ^ (k + 2) * (y / 2 ^ (k + 2)) + 2 ^ (k + 1) := by ring
  have e2 : (2:Nat) ^ (k + 2) = 2 * 2 ^ (k + 1) := by ring
  have e3 : (2:Nat) ^ (k + 1) = 2 * 2 ^ k := by ring
  have := two_pow_pos k
  omega

theorem sLo_le_self (y : Nat) : sLo y ≤ y := Nat.sub_le _ _

theorem self_le_sHi (y : Nat) : y ≤ sHi y := Nat.le_add_right _ _

theorem ge_of_level (y k : Nat) (h : level y = k) : 2 ^ k - 1 ≤ y := by
  have hd := level_decomp y k h
  omega

/-- Splitting a level-`(k+1)` subtree into left child, the root itself, and
right child. -/
theorem subtree_split (y k m : Nat) (h : level y = k + 1) :
    inSubtree y m ↔ inSubtree (leftc y (k + 1)) m ∨ m = y ∨ inSubtree (rightc y (k + 1)) m := by
  have hlb := leftc_bounds y k h
  have hrb := rightc_bounds y k h
  have hge := ge_of_level y (k + 1) h
  have hsl : sLo y ≤ y := sLo_le_self y
  have hsh : y ≤ sHi y := self_le_sHi y
  have hgl : 2 ^ k - 1 ≤ leftc y (k + 1) := ge_of_level _ k (level_leftc y k h)
  have e3 : (2:Nat) ^ (k + 1) = 2 * 2 ^ k := by ring
  have := two_pow_pos k
  have hy1 : 1 ≤ y := by omega
  unfold inSubtree at *
  omega

/-- Subtree nesting along the ancestor chain. -/
theorem inSubtree_anc_succ (x j m : Nat) (hm : inSubtree (ancK x j) m) :
    inSubtree (ancK x (j + 1)) m := by
  have h1 : ancK x (j + 1) = ancK (ancK x j) (j + 1) := (ancK_ancK x j).symm
  rw [h1, inSubtree_iff_div _ (j + 1) _ (level_ancK (ancK x j) (j + 1)), ancK_div]
  rw [inSubtree_iff_div _ j _ (level_ancK x j)] at hm
  obtain ⟨hdiv, hmod⟩ := hm
  rw [show j + 1 + 1 = j + 2 from rfl]
  have e2 : (2:Nat) ^ (j + 2) = 2 ^ (j + 1) * 2 := by ring
  constructor
  · rw [e2, ← Nat.div_div_eq_div_mul, ← Nat.div_div_eq_div_mul, hdiv]
  · have hmm : m % 2 ^ (j + 1) = m % 2 ^ (j + 2) % 2 ^ (j + 1) :=
      (Nat.mod_mod_of_dvd m ⟨2, e2⟩).symm
    by_contra hge
    push_neg at hge
    have hlt := Nat.mod_lt m (two_pow_pos (j + 2))
    have heq : m % 2 ^ (j + 2) = 2 ^ (j + 2) - 1 := by omega
    rw [heq] at hmm
    have hp1 := two_pow_pos (j + 1)
    have e4 : (2:Nat) ^ (j + 2) - 1 = 2 ^ (j + 1) * 1 + (2 ^ (j + 1) - 1) := by omega
    rw [e4, Nat.mul_add_mod] at hmm
    have hsm : (2 ^ (j + 1) - 1) % 2 ^ (j + 1) = 2 ^ (j + 1) - 1 :=
      Nat.mod_eq_of_lt (by omega)
    rw [hsm] at hmm
    omega

theorem inSubtree_anc_of_le (x j k m : Nat) (hjk : j ≤ k) (hm : inSubtree (ancK x j) m) :
    inSubtree (ancK x k) m := by
  induction k with
  | zero =>
    have : j = 0 := by omega
    subst this
    exact hm
  | succ k ih =>
    rcases Nat.lt_or_ge j (k + 1) with hlt | hge
    · exact inSubtree_anc_succ x k m (ih (by omega))
    · have : j = k + 1 := by omega
      subst this
      exact hm

/-- `ancK x 0 = x` for even `x`. -/
theorem ancK_zero (x : Nat) (h : x % 2 = 0) : ancK x 0 = x := by
  unfold ancK
  simp only [pow_one, pow_zero]
  omega

theorem ancK_top (x K : Nat) (h : x < 2 ^ (K + 1) - 1) : ancK x K = 2 ^ K - 1 := by
  unfold ancK
  have h0 : x / 2 ^ (K + 1) = 0 := Nat.div_eq_of_lt (by omega)
  rw [h0, Nat.mul_zero, Nat.zero_add]

/-! ### Root geometry and the right border -/

theorem geomGo_spec : ∀ fuel N rl, N ≤ 2 ^ (rl + fuel + 1) - 1 →
    rl ≤ geomGo fuel N rl ∧ N ≤ 2 ^ (geomGo fuel N rl + 1) - 1 := by
  intro fuel
  induction fuel with
  | zero =>
    intro N rl h
    rw [Nat.add_zero] at h
    exact ⟨le_refl _, h⟩
  | succ fuel ih =>
    intro N rl h
    rw [geomGo]
    by_cases hc : 2 ^ (rl + 1) - 1 < N
    · rw [if_pos hc]
      have hrec := ih N (rl + 1) (by
        rw [show rl + 1 + fuel + 1 = rl + (fuel + 1) + 1 from by omega]
        exact h)
      exact ⟨by omega, hrec.2⟩
    · rw [if_neg hc]
      exact ⟨le_refl _, by omega⟩

theorem geomGo_fuel (N : Nat) : N ≤ 2 ^ (1 + N + 1) - 1 := by
  have h1 : N < 2 ^ N := Nat.lt_two_pow N
  have h2 : (2:Nat) ^ N ≤ 2 ^ (1 + N + 1) := Nat.pow_le_pow_right (by norm_num) (by omega)
  omega

theorem fullSize_ge (N : Nat) : N ≤ fullSize N := by
  unfold fullSize
  by_cases h : N = 0
  · simp [h]
  · rw [if_neg h]
    unfold rootLevel
    rw [if_neg h]
    exact (geomGo_spec N N 1 (geomGo_fuel N)).2

theorem rootLevel_pos (N : Nat) (h : 1 ≤ N) : 1 ≤ rootLevel N := by
  unfold rootLevel
  rw [if_neg (by omega)]
  exact (geomGo_spec N N 1 (geomGo_fuel N)).1

theorem fullSize_eq (N : Nat) (h : 1 ≤ N) : fullSize N = 2 ^ (rootLevel N + 1) - 1 := by
  unfold fullSize
  rw [if_neg (by omega)]

theorem level_rootRank (N : Nat) : level (rootRank N) = rootLevel N :=
  level_two_pow_sub_one (rootLevel N)

theorem rootRank_lt_fullSize (N : Nat) (h : 1 ≤ N) : rootRank N < fullSize N := by
  rw [fullSize_eq N h]
  unfold rootRank
  have h1 : (2:Nat) ^ (rootLevel N + 1) = 2 * 2 ^ rootLevel N := by ring
  have := two_pow_pos (rootLevel N)
  omega

theorem level_le_rootLevel (N x : Nat) (h1 : 1 ≤ N) (h : x < fullSize N) :
    level x ≤ rootLevel N := by
  rw [fullSize_eq N h1] at h
  exact level_le_of_lt x (rootLevel N) h

theorem eq_rootRank (N x : Nat) (h1 : 1 ≤ N) (h : x < fullSize N)
    (hl : level x = rootLevel N) : x = rootRank N := by
  rw [fullSize_eq N h1] at h
  exact eq_root_of_level x (rootLevel N) h hl

theorem sLo_rootRank (N : Nat) : sLo (rootRank N) = 0 := by
  unfold sLo
  rw [level_rootRank]
  unfold rootRank
  omega

theorem sHi_rootRank (N : Nat) (h : 1 ≤ N) : fullSize N = sHi (rootRank N) + 1 := by
  unfold sHi
  rw [level_rootRank, fullSize_eq N h]
  unfold rootRank
  have h1 : (2:Nat) ^ (rootLevel N + 1) = 2 * 2 ^ rootLevel N := by ring
  have := two_pow_pos (rootLevel N)
  omega

/-- The rightmost real leaf (`nodes.size() - (2 - nodes.size() % 2)`). -/
def r0 (N : Nat) : Nat := N - (2 - N % 2)

theorem rightBorderNodes_def (N : Nat) :
    rightBorderNodes N = borderAux (rootRank N) (r0 N) (rootLevel N) := rfl

theorem r0_lt (N : Nat) (h : 1 ≤ N) : r0 N < N := by
  unfold r0
  omega

theorem r0_ge (N : Nat) : N ≤ r0 N + 2 := by
  unfold r0
  omega

theorem level_r0 (N : Nat) (h : 1 ≤ N) : level (r0 N) = 0 := by
  apply level_of_even
  unfold r0
  omega

theorem ancK_r0_top (N : Nat) (h : 1 ≤ N) : ancK (r0 N) (rootLevel N) = rootRank N := by
  have hlt : r0 N < 2 ^ (rootLevel N + 1) - 1 := by
    have := r0_lt N h
    have := fullSize_ge N
    have := fullSize_eq N h
    omega
  exact ancK_top (r0 N) (rootLevel N) hlt

/-- The memoized right border is exactly the `ancK`-ancestor chain of the
rightmost real leaf. -/
theorem rightBorderNodes_getD (N : Nat) (h1 : 1 ≤ N) (k : Nat) (hk : k ≤ rootLevel N) :
    (rightBorderNodes N).getD k 0 = ancK (r0 N) k := by
  have hroot : level (rootRank N) = rootLevel N := level_rootRank N
  have H : ∀ fuel j, j + fuel = rootLevel N →
      ∀ i, i ≤ fuel →
        (borderAux (rootRank N) (ancK (r0 N) j) fuel).getD i 0 = ancK (r0 N) (j + i) := by
    intro fuel
    induction fuel with
    | zero =>
      intro j hj i hi
      have : i = 0 := by omega
      subst this
      rfl
    | succ fuel ih =>
      intro j hj i hi
      have hne : ancK (r0 N) j ≠ rootRank N := by
        intro heq
        have := level_ancK (r0 N) j
        rw [heq, hroot] at this
        omega
      rw [borderAux, if_neg hne]
      have hlev : level (ancK (r0 N) j) = j := level_ancK (r0 N) j
      rw [hlev, parentArith_ancK_chain]
      cases i with
      | zero => rfl
      | succ i' =>
        have := ih (j + 1) (by omega) i' (by omega)
        simpa [Nat.add_assoc, Nat.add_comm 1 i'] using this
  have h0 : ancK (r0 N) 0 = r0 N := by
    apply ancK_zero
    unfold r0
    omega
  have := H (rootLevel N) 0 (by omega) k hk
  rw [h0] at this
  rw [rightBorderNodes_def]
  simpa using this

/-- A real node whose right child is imaginary must lie on the right border:
it is the level-`k` ancestor of the rightmost real leaf. -/
theorem right_imaginary_anc (N n k : Nat) (hk : 1 ≤ k) (hn : n < N) (hlev : level n = k)
    (him : N ≤ rightc n k) : inSubtree n (r0 N) ∧ n = ancK (r0 N) k := by
  have hp : (2:Nat) ^ k = 2 ^ (k - 1) * 2 := by
    rw [← pow_succ]
    congr 1
    omega
  have hpos := two_pow_pos (k - 1)
  have hr0ge := r0_ge N
  have hr0lt := r0_lt N (by omega)
  unfold rightc at him
  have hin : inSubtree n (r0 N) := by
    unfold inSubtree sLo sHi
    rw [hlev]
    omega
  exact ⟨hin, subtree_unique n k _ hlev hin⟩

/-! ### List access and the sorted node array -/

theorem nd_nil (i : Nat) : nd [] i = default := by
  cases i <;> rfl

theorem nd_set_self : ∀ (ns : List Node) (n : Nat) (v : Node), n < ns.length →
    nd (ns.set n v) n = v := by
  intro ns
  induction ns with
  | nil =>
    intro n v h
    simp at h
  | cons a t ih =>
    intro n v h
    cases n with
    | zero => rfl
    | succ n' =>
      show nd (a :: t.set n' v) (n' + 1) = v
      show nd (t.set n' v) n' = v
      exact ih n' v (by simpa using h)

theorem nd_set_ne : ∀ (ns : List Node) (n m : Nat) (v : Node), m ≠ n →
    nd (ns.set n v) m = nd ns m := by
  intro ns
  induction ns with
  | nil =>
    intro n m v _
    rfl
  | cons a t ih =>
    intro n m v h
    cases n with
    | zero =>
      cases m with
      | zero => omega
      | succ m' => rfl
    | succ n' =>
      cases m with
      | zero => rfl
      | succ m' =>
        show nd (t.set n' v) m' = nd t m'
        exact ih n' m' v (by omega)

theorem nd_mem : ∀ (ns : List Node) (i : Nat), i < ns.length → nd ns i ∈ ns := by
  intro ns
  induction ns with
  | nil =>
    intro i h
    simp at h
  | cons a t ih =>
    intro i h
    cases i with
    | zero => exact List.mem_cons_self a t
    | succ i' =>
      exact List.mem_cons_of_mem a (ih i' (by simpa using h))

theorem length_sortNodes (items : List (Int × Int)) :
    (sortNodes items).length = items.length := by
  unfold sortNodes
  rw [List.length_insertionSort, List.length_map]

theorem sortNodes_sorted (items : List (Int × Int)) :
    List.Sorted nodeLe (sortNodes items) :=
  List.sorted_insertionSort nodeLe (items.map mkNode)

/-- Begin positions are non-decreasing along the sorted node array. -/
theorem sortNodes_begs (items : List (Int × Int)) (i j : Nat) (hij : i ≤ j)
    (hj : j < (sortNodes items).length) :
    (nd (sortNodes items) i).beg ≤ (nd (sortNodes items) j).beg := by
  rcases Nat.eq_or_lt_of_le hij with heq | hlt
  · subst heq
    exact le_refl _
  · have hi : i < (sortNodes items).length := by omega
    have hs := sortNodes_sorted items
    have hrel := List.Sorted.rel_get_of_lt hs (a := ⟨i, hi⟩) (b := ⟨j, hj⟩) hlt
    have e1 : nd (sortNodes items) i = (sortNodes items).get ⟨i, hi⟩ := by
      unfold nd
      exact List.getD_eq_get _ _ hi
    have e2 : nd (sortNodes items) j = (sortNodes items).get ⟨j, hj⟩ := by
      unfold nd
      exact List.getD_eq_get _ _ hj
    rw [e1, e2]
    rcases hrel with h | ⟨h, _⟩
    · exact le_of_lt h
    · exact le_of_eq h

/-- Every node of the freshly sorted array carries its initializer values in
the augment fields. -/
theorem sortNodes_init (items : List (Int × Int)) (i : Nat)
    (h : i < (sortNodes items).length) :
    (nd (sortNodes items) i).inside_max_end = (nd (sortNodes items) i).endp ∧
    (nd (sortNodes items) i).outside_max_end = PMIN := by
  have hm := nd_mem (sortNodes items) i h
  unfold sortNodes at hm
  rw [List.mem_insertionSort, List.mem_map] at hm
  obtain ⟨it, _, heq⟩ := hm
  have heq2 : nd (sortNodes items) i = mkNode it := heq.symm
  rw [heq2]
  exact ⟨rfl, rfl⟩

theorem mem_levelRanks (N k n : Nat) : n ∈ levelRanks N k ↔ n < N ∧ level n = k := by
  unfold levelRanks
  rw [List.mem_filter, List.mem_range]
  constructor
  · rintro ⟨h1, h2⟩
    exact ⟨h1, (level_eq_iff n k).mpr (by simpa using h2)⟩
  · rintro ⟨h1, h2⟩
    exact ⟨h1, by simpa using (level_eq_iff n k).mp h2⟩

theorem levelRanks_nodup (N k : Nat) : (levelRanks N k).Nodup :=
  (List.nodup_range N).filter _

/-! ### Exactness of the bottom-up `inside_max_end` pass -/

/-- `v` is exactly the maximum of `endp` over the real ranks in `[lo, hi]`:
an upper bound, attained at a real rank in the interval. -/
def IsMaxEnd (ns0 : List Node) (lo hi : Nat) (v : Int) : Prop :=
  (∀ m, m < ns0.length → lo ≤ m → m ≤ hi → (nd ns0 m).endp ≤ v) ∧
  (∃ m, m < ns0.length ∧ lo ≤ m ∧ m ≤ hi ∧ v = (nd ns0 m).endp)

/-- Combine exact maxima of the left-child range and the right-child range
with the node's own end position. -/
theorem isMaxEnd_compose (ns0 : List Node) (lo hi n : Nat) (vl vr : Int)
    (hn : n < ns0.length) (hlo : lo ≤ n) (hhi : n ≤ hi)
    (hl : IsMaxEnd ns0 lo (n - 1) vl) (hr : IsMaxEnd ns0 (n + 1) hi vr) :
    IsMaxEnd ns0 lo hi (max (max (nd ns0 n).endp vl) vr) := by
  obtain ⟨hlub, ml, hml, hml1, hml2, hmle⟩ := hl
  obtain ⟨hrub, mr, hmr, hmr1, hmr2, hmre⟩ := hr
  constructor
  · intro m hm h1 h2
    rcases Nat.lt_trichotomy m n with h | h | h
    · have := hlub m hm h1 (by omega)
      exact le_trans this (by simp [le_max_iff])
    · subst h
      simp [le_max_iff]
    · have := hrub m hm (by omega) h2
      exact le_trans this (by simp [le_max_iff])
  · rcases le_total (max (nd ns0 n).endp vl) vr with h | h
    · rw [max_eq_right h]
      exact ⟨mr, hmr, by omega, by omega, hmre⟩
    · rw [max_eq_left h]
      rcases le_total (nd ns0 n).endp vl with h' | h'
      · rw [max_eq_right h']
        exact ⟨ml, hml, hml1, by omega, hmle⟩
      · rw [max_eq_left h']
        exact ⟨n, hn, hlo, hhi, rfl⟩

/-- Combine the left child's exact maximum with the running border value
when the right child is imaginary: the border value is an exact maximum over
some interval that covers the whole (real part of the) right range and sits
inside `[lo, hi]`. -/
theorem isMaxEnd_compose_rbi (ns0 : List Node) (lo hi n bLo bHi : Nat) (vl rbi : Int)
    (hn : n < ns0.length) (hlo : lo ≤ n) (hhi : n ≤ hi)
    (hl : IsMaxEnd ns0 lo (n - 1) vl)
    (hrb : IsMaxEnd ns0 bLo bHi rbi)
    (hcov : ∀ m, m < ns0.length → n + 1 ≤ m → m ≤ hi → bLo ≤ m ∧ m ≤ bHi)
    (hsub : ∀ m, bLo ≤ m → m ≤ bHi → lo ≤ m ∧ m ≤ hi) :
    IsMaxEnd ns0 lo hi (max (max (nd ns0 n).endp vl) rbi) := by
  obtain ⟨hlub, ml, hml, hml1, hml2, hmle⟩ := hl
  obtain ⟨hrub, mr, hmr, hmr1, hmr2, hmre⟩ := hrb
  constructor
  · intro m hm h1 h2
    rcases Nat.lt_trichotomy m n with h | h | h
    · have := hlub m hm h1 (by omega)
      exact le_trans this (by simp [le_max_iff])
    · subst h
      simp [le_max_iff]
    · obtain ⟨hb1, hb2⟩ := hcov m hm (by omega) h2
      have := hrub m hm hb1 hb2
      exact le_trans this (by simp [le_max_iff])
  · rcases le_total (max (nd ns0 n).endp vl) rbi with h | h
    · rw [max_eq_right h]
      obtain ⟨hs1, hs2⟩ := hsub mr hmr1 hmr2
      exact ⟨mr, hmr, hs1, hs2, hmre⟩
    · rw [max_eq_left h]
      rcases le_total (nd ns0 n).endp vl with h' | h'
      · rw [max_eq_right h']
        exact ⟨ml, hml, hml1, by omega, hmle⟩
      · rw [max_eq_left h']
        exact ⟨n, hn, hlo, hhi, rfl⟩

/-- Exactness of the value computed for one node by the bottom-up pass:
with both children's maxima exact (and, if the right child is imaginary, the
running border value exact over the border subtree), the computed value is
the exact maximum over the node's subtree. -/
theorem imeStep_node_ok (ns0 : List Node) (N k' n : Nat) (hN0 : N = ns0.length)
    (hn : n < N) (hlev : level n = k' + 1)
    (ns : List Node) (rbi : Int)
    (hlen : ns.length = N)
    (hendp : ∀ i, (nd ns i).endp = (nd ns0 i).endp)
    (hchild : ∀ i, i < N → level i < k' + 1 →
      IsMaxEnd ns0 (sLo i) (sHi i) (nd ns i).inside_max_end)
    (hrbi : N ≤ rightc n (k' + 1) →
      IsMaxEnd ns0 (sLo (ancK (r0 N) k')) (sHi (ancK (r0 N) k')) rbi) :
    IsMaxEnd ns0 (sLo n) (sHi n)
      (if rightc n (k' + 1) < ns.length
       then max (max (nd ns n).endp (nd ns (leftc n (k' + 1))).inside_max_end)
              (nd ns (rightc n (k' + 1))).inside_max_end
       else max (max (nd ns n).endp (nd ns (leftc n (k' + 1))).inside_max_end) rbi) := by
  have hlb := leftc_bounds n k' hlev
  have hllev := level_leftc n k' hlev
  have hlcN : leftc n (k' + 1) < N := by
    have : leftc n (k' + 1) ≤ n := Nat.sub_le _ _
    omega
  have hLmax : IsMaxEnd ns0 (sLo n) (n - 1) (nd ns (leftc n (k' + 1))).inside_max_end := by
    have := hchild (leftc n (k' + 1)) hlcN (by omega)
    rwa [hlb.1, hlb.2] at this
  have hnlo : sLo n ≤ n := sLo_le_self n
  have hnhi : n ≤ sHi n := self_le_sHi n
  rw [hendp n]
  by_cases h : rightc n (k' + 1) < ns.length
  · rw [if_pos h]
    rw [hlen] at h
    have hrb := rightc_bounds n k' hlev
    have hrlev := level_rightc n k' hlev
    have hRmax : IsMaxEnd ns0 (n + 1) (sHi n) (nd ns (rightc n (k' + 1))).inside_max_end := by
      have := hchild (rightc n (k' + 1)) h (by omega)
      rwa [hrb.1, hrb.2] at this
    exact isMaxEnd_compose ns0 (sLo n) (sHi n) n _ _ (by omega) hnlo hnhi hLmax hRmax
  · rw [if_neg h]
    rw [hlen] at h
    push_neg at h
    obtain ⟨hin, hanc⟩ := right_imaginary_anc N n (k' + 1) (by omega) hn hlev h
    have hrb := hrbi h
    have hN1 : 1 ≤ N := by omega
    have hr0lev := level_r0 N hN1
    have hr0lt := r0_lt N hN1
    have hr0ge := r0_ge N
    apply isMaxEnd_compose_rbi ns0 (sLo n) (sHi n) n (sLo (ancK (r0 N) k'))
      (sHi (ancK (r0 N) k')) _ rbi (by omega) hnlo hnhi hLmax hrb
    · -- every real node in the right-child range lies in the border subtree
      intro m hm h1 h2
      rcases Nat.lt_or_ge n (r0 N) with hgt | hle
      · -- the rightmost real leaf is in the right subtree, so the border
        -- subtree at level k' is exactly the right child's subtree
        have hrcb := rightc_bounds n k' hlev
        have hrlev := level_rightc n k' hlev
        have hinr : inSubtree (rightc n (k' + 1)) (r0 N) := by
          unfold inSubtree
          rw [hrcb.1, hrcb.2]
          exact ⟨by omega, hin.2⟩
        have : rightc n (k' + 1) = ancK (r0 N) k' := subtree_unique _ k' _ hrlev hinr
        rw [← this]
        unfold inSubtree at *
        rw [hrcb.1, hrcb.2]
        exact ⟨h1, h2⟩
      · -- otherwise there is no real node to the right of `n` at all
        exfalso
        have hne : r0 N ≠ n := by
          intro heq
          rw [heq, hlev] at hr0lev
          omega
        omega
    · -- the border subtree sits inside `n`'s subtree
      intro m hm1 hm2
      have : inSubtree (ancK (r0 N) (k' + 1)) m := inSubtree_anc_succ (r0 N) k' m ⟨hm1, hm2⟩
      rw [← hanc] at this
      exact this

/-- Lifting the running border value one level up across an imaginary border
node: the bigger border subtree contains no additional real nodes. -/
theorem rbi_spec_lift (ns0 : List Node) (N k' : Nat) (rbi : Int) (hN0 : N = ns0.length)
    (hN : 1 ≤ N) (him : N ≤ ancK (r0 N) (k' + 1))
    (hrb : IsMaxEnd ns0 (sLo (ancK (r0 N) k')) (sHi (ancK (r0 N) k')) rbi) :
    IsMaxEnd ns0 (sLo (ancK (r0 N) (k' + 1))) (sHi (ancK (r0 N) (k' + 1))) rbi := by
  set b' := ancK (r0 N) (k' + 1) with hb'
  have hlevb' : level b' = k' + 1 := level_ancK _ _
  have hr0lt := r0_lt N hN
  -- the left child of b' is the level-k' ancestor of the rightmost leaf
  have hr0in : inSubtree b' (r0 N) := inSubtree_self_anc (r0 N) (k' + 1) (by
    rw [level_r0 N hN]; omega)
  have hrcb := rightc_bounds b' k' hlevb'
  have hsplit0 := subtree_split b' k' (r0 N) hlevb'
  have hleft : inSubtree (leftc b' (k' + 1)) (r0 N) := by
    rcases hsplit0.mp hr0in with h | h | h
    · exact h
    · omega
    · exfalso
      have := h.1
      rw [hrcb.1] at this
      omega
  have hlc : leftc b' (k' + 1) = ancK (r0 N) k' :=
    subtree_unique _ k' _ (level_leftc b' k' hlevb') hleft
  obtain ⟨hub, mw, hmw, hmw1, hmw2, hmwe⟩ := hrb
  constructor
  · intro m hm h1 h2
    have hmem : inSubtree b' m := ⟨h1, h2⟩
    rcases (subtree_split b' k' m hlevb').mp hmem with h | h | h
    · rw [hlc] at h
      exact hub m hm h.1 h.2
    · omega
    · exfalso
      have := h.1
      rw [hrcb.1] at this
      omega
  · refine ⟨mw, hmw, ?_, ?_, hmwe⟩
    · have : inSubtree (ancK (r0 N) (k' + 1)) mw :=
        inSubtree_anc_succ (r0 N) k' mw ⟨hmw1, hmw2⟩
      exact this.1
    · have : inSubtree (ancK (r0 N) (k' + 1)) mw :=
        inSubtree_anc_succ (r0 N) k' mw ⟨hmw1, hmw2⟩
      exact this.2

/-- Invariant of the inner fold of the bottom-up pass over one level. -/
theorem imeStep_fold (ns0 : List Node) (N k' borderK : Nat) (hN0 : N = ns0.length)
    (hN : 1 ≤ N) (hborder : borderK = ancK (r0 N) (k' + 1)) :
    ∀ (L : List Nat) (ns : List Node) (rbi : Int),
      L.Nodup →
      (∀ n ∈ L, n < N ∧ level n = k' + 1) →
      ns.length = N →
      (∀ i, (nd ns i).beg = (nd ns0 i).beg ∧ (nd ns i).endp = (nd ns0 i).endp ∧
            (nd ns i).outside_max_end = (nd ns0 i).outside_max_end) →
      (∀ i, i < N → level i < k' + 1 →
        IsMaxEnd ns0 (sLo i) (sHi i) (nd ns i).inside_max_end) →
      (borderK ∈ L → IsMaxEnd ns0 (sLo (ancK (r0 N) k')) (sHi (ancK (r0 N) k')) rbi) →
      (borderK ∉ L →
        IsMaxEnd ns0 (sLo (ancK (r0 N) (k' + 1))) (sHi (ancK (r0 N) (k' + 1))) rbi) →
      (L.foldl (imeStep (k' + 1) borderK) (ns, rbi)).1.length = N ∧
      (∀ i, (nd (L.foldl (imeStep (k' + 1) borderK) (ns, rbi)).1 i).beg = (nd ns0 i).beg ∧
            (nd (L.foldl (imeStep (k' + 1) borderK) (ns, rbi)).1 i).endp = (nd ns0 i).endp ∧
            (nd (L.foldl (imeStep (k' + 1) borderK) (ns, rbi)).1 i).outside_max_end
              = (nd ns0 i).outside_max_end) ∧
      (∀ i, i < N → level i < k' + 1 →
        IsMaxEnd ns0 (sLo i) (sHi i)
          (nd (L.foldl (imeStep (k' + 1) borderK) (ns, rbi)).1 i).inside_max_end) ∧
      (∀ n ∈ L, IsMaxEnd ns0 (sLo n) (sHi n)
          (nd (L.foldl (imeStep (k' + 1) borderK) (ns, rbi)).1 n).inside_max_end) ∧
      (∀ i, i ∉ L →
        (nd (L.foldl (imeStep (k' + 1) borderK) (ns, rbi)).1 i).inside_max_end
          = (nd ns i).inside_max_end) ∧
      IsMaxEnd ns0 (sLo (ancK (r0 N) (k' + 1))) (sHi (ancK (r0 N) (k' + 1)))
        (L.foldl (imeStep (k' + 1) borderK) (ns, rbi)).2 := by
  intro L
  induction L with
  | nil =>
    intro ns rbi _ _ h3 h4 h5 _ h7
    refine ⟨h3, h4, h5, ?_, ?_, h7 (by simp)⟩
    · intro n hn
      simp at hn
    · intro i _
      rfl
  | cons n L' ih =>
    intro ns rbi h1 h2 h3 h4 h5 h6 h7
    obtain ⟨hnN, hnlev⟩ := h2 n (List.mem_cons_self n L')
    -- the value computed for `n` in this step
    set V : Int :=
      (if rightc n (k' + 1) < ns.length
       then max (max (nd ns n).endp (nd ns (leftc n (k' + 1))).inside_max_end)
              (nd ns (rightc n (k' + 1))).inside_max_end
       else max (max (nd ns n).endp (nd ns (leftc n (k' + 1))).inside_max_end) rbi)
      with hV
    have hstep : imeStep (k' + 1) borderK (ns, rbi) n
        = (ns.set n { nd ns n with inside_max_end := V },
           if n = borderK then V else rbi) := rfl
    have hVok : IsMaxEnd ns0 (sLo n) (sHi n) V := by
      apply imeStep_node_ok ns0 N k' n hN0 hnN hnlev ns rbi h3 (fun i => (h4 i).2.1) h5
      intro him
      apply h6
      have := (right_imaginary_anc N n (k' + 1) (by omega) hnN hnlev him).2
      rw [hborder, ← this]
      exact List.mem_cons_self n L'
    have hstep1len : (ns.set n { nd ns n with inside_max_end := V }).length = N := by
      rw [List.length_set]
      exact h3
    have hndset : ∀ i, i ≠ n →
        nd (ns.set n { nd ns n with inside_max_end := V }) i = nd ns i := by
      intro i hi
      exact nd_set_ne ns n i _ hi
    have hndn : nd (ns.set n { nd ns n with inside_max_end := V }) n
        = { nd ns n with inside_max_end := V } := by
      apply nd_set_self
      omega
    have hfields : ∀ i,
        (nd (ns.set n { nd ns n with inside_max_end := V }) i).beg = (nd ns0 i).beg ∧
        (nd (ns.set n { nd ns n with inside_max_end := V }) i).endp = (nd ns0 i).endp ∧
        (nd (ns.set n { nd ns n with inside_max_end := V }) i).outside_max_end
          = (nd ns0 i).outside_max_end := by
      intro i
      by_cases hi : i = n
      · subst hi
        rw [hndn]
        exact h4 i
      · rw [hndset i hi]
        exact h4 i
    have hchild' : ∀ i, i < N → level i < k' + 1 →
        IsMaxEnd ns0 (sLo i) (sHi i)
          (nd (ns.set n { nd ns n with inside_max_end := V }) i).inside_max_end := by
      intro i hiN hilev
      have hi : i ≠ n := by
        intro heq
        rw [heq, hnlev] at hilev
        omega
      rw [hndset i hi]
      exact h5 i hiN hilev
    have hnodup' : L'.Nodup := (List.nodup_cons.mp h1).2
    have hnnotin : n ∉ L' := (List.nodup_cons.mp h1).1
    rw [List.foldl_cons, hstep]
    by_cases hbn : n = borderK
    · -- processing the border node: the running value is replaced
      rw [if_pos hbn]
      have hres := ih (ns.set n { nd ns n with inside_max_end := V }) V hnodup'
        (fun m hm => h2 m (List.mem_cons_of_mem n hm)) hstep1len hfields hchild'
        (by
          intro hmem
          exact absurd hmem (hbn ▸ hnnotin))
        (by
          intro _
          have : sLo n = sLo (ancK (r0 N) (k' + 1)) ∧ sHi n = sHi (ancK (r0 N) (k' + 1)) := by
            rw [← hborder, ← hbn]
            exact ⟨rfl, rfl⟩
          rw [← this.1, ← this.2]
          exact hVok)
      obtain ⟨c1, c2, c3, c4, c5, c6⟩ := hres
      refine ⟨c1, c2, c3, ?_, ?_, c6⟩
      · intro m hm
        rcases List.mem_cons.mp hm with heq | hm'
        · subst heq
          rw [c5 m hnnotin, hndn]
          exact hVok
        · exact c4 m hm'
      · intro i hi
        have hi1 : i ≠ n := fun heq => hi (heq ▸ List.mem_cons_self n L')
        have hi2 : i ∉ L' := fun hmem => hi (List.mem_cons_of_mem n hmem)
        rw [c5 i hi2, hndset i hi1]
    · -- an interior node of the level: the running value is untouched
      rw [if_neg hbn]
      have hres := ih (ns.set n { nd ns n with inside_max_end := V }) rbi hnodup'
        (fun m hm => h2 m (List.mem_cons_of_mem n hm)) hstep1len hfields hchild'
        (fun hmem => h6 (List.mem_cons_of_mem n hmem))
        (by
          intro hmem
          apply h7
          intro hmem2
          rcases List.mem_cons.mp hmem2 with heq | hm'
          · exact hbn heq.symm
          · exact hmem hm')
      obtain ⟨c1, c2, c3, c4, c5, c6⟩ := hres
      refine ⟨c1, c2, c3, ?_, ?_, c6⟩
      · intro m hm
        rcases List.mem_cons.mp hm with heq | hm'
        · subst heq
          rw [c5 m hnnotin, hndn]
          exact hVok
        · exact c4 m hm'
      · intro i hi
        have hi1 : i ≠ n := fun heq => hi (heq ▸ List.mem_cons_self n L')
        have hi2 : i ∉ L' := fun hmem => hi (List.mem_cons_of_mem n hmem)
        rw [c5 i hi2, hndset i hi1]

/-- State of the bottom-up pass after processing levels `1 .. k`. -/
def imeState (ns0 : List Node) (k : Nat) : List Node × Int :=
  (List.range' 1 k).foldl
    (fun acc j => (levelRanks ns0.length j).foldl
      (imeStep j ((rightBorderNodes ns0.length).getD j 0)) acc)
    (ns0, (nd ns0 ((rightBorderNodes ns0.length).getD 0 0)).inside_max_end)

theorem buildIme_eq (ns0 : List Node) (hN : 1 ≤ ns0.length) :
    buildIme ns0 = (imeState ns0 (rootLevel ns0.length)).1 := by
  unfold buildIme imeState
  rw [if_neg (by omega)]

theorem buildIme_nil (ns0 : List Node) (hN : ns0.length = 0) : buildIme ns0 = ns0 := by
  unfold buildIme
  rw [if_pos hN]

theorem isMaxEnd_leaf (ns0 : List Node) (i : Nat) (hi : i < ns0.length) :
    IsMaxEnd ns0 i i (nd ns0 i).endp := by
  constructor
  · intro m hm h1 h2
    have : m = i := le_antisymm h2 h1
    rw [this]
  · exact ⟨i, hi, le_refl i, le_refl i, rfl⟩

theorem sLo_of_level_zero (i : Nat) (h : level i = 0) : sLo i = i := by
  unfold sLo
  rw [h]
  norm_num

theorem sHi_of_level_zero (i : Nat) (h : level i = 0) : sHi i = i := by
  unfold sHi
  rw [h]
  norm_num

theorem imeState_inv (ns0 : List Node) (hN : 1 ≤ ns0.length)
    (hinit : ∀ i, i < ns0.length → (nd ns0 i).inside_max_end = (nd ns0 i).endp) :
    ∀ k, k ≤ rootLevel ns0.length →
      (imeState ns0 k).1.length = ns0.length ∧
      (∀ i, (nd (imeState ns0 k).1 i).beg = (nd ns0 i).beg ∧
            (nd (imeState ns0 k).1 i).endp = (nd ns0 i).endp ∧
            (nd (imeState ns0 k).1 i).outside_max_end = (nd ns0 i).outside_max_end) ∧
      (∀ i, i < ns0.length → level i ≤ k →
        IsMaxEnd ns0 (sLo i) (sHi i) (nd (imeState ns0 k).1 i).inside_max_end) ∧
      IsMaxEnd ns0 (sLo (ancK (r0 ns0.length) k)) (sHi (ancK (r0 ns0.length) k))
        (imeState ns0 k).2 := by
  have hb0 : (rightBorderNodes ns0.length).getD 0 0 = r0 ns0.length := by
    rw [rightBorderNodes_getD ns0.length hN 0 (Nat.zero_le _)]
    apply ancK_zero
    unfold r0
    omega
  have hr0lt := r0_lt ns0.length hN
  have hr0lev := level_r0 ns0.length hN
  intro k
  induction k with
  | zero =>
    intro _
    refine ⟨rfl, fun i => ⟨rfl, rfl, rfl⟩, ?_, ?_⟩
    · intro i hi hlev
      have h0 : level i = 0 := by omega
      rw [sLo_of_level_zero i h0, sHi_of_level_zero i h0]
      show IsMaxEnd ns0 i i (nd ns0 i).inside_max_end
      rw [hinit i hi]
      exact isMaxEnd_leaf ns0 i hi
    · show IsMaxEnd ns0 (sLo (ancK (r0 ns0.length) 0)) (sHi (ancK (r0 ns0.length) 0))
        (nd ns0 ((rightBorderNodes ns0.length).getD 0 0)).inside_max_end
      rw [hb0]
      have ha : ancK (r0 ns0.length) 0 = r0 ns0.length := by
        apply ancK_zero
        unfold r0
        omega
      rw [ha, sLo_of_level_zero _ hr0lev, sHi_of_level_zero _ hr0lev, hinit _ hr0lt]
      exact isMaxEnd_leaf ns0 _ hr0lt
  | succ k ih =>
    intro hk1
    have hk : k ≤ rootLevel ns0.length := by omega
    obtain ⟨c1, c2, c3, c4⟩ := ih hk
    have hborder : (rightBorderNodes ns0.length).getD (k + 1) 0
        = ancK (r0 ns0.length) (k + 1) :=
      rightBorderNodes_getD ns0.length hN (k + 1) hk1
    have hstep : imeState ns0 (k + 1)
        = (levelRanks ns0.length (k + 1)).foldl
            (imeStep (k + 1) ((rightBorderNodes ns0.length).getD (k + 1) 0))
            ((imeState ns0 k).1, (imeState ns0 k).2) := by
      unfold imeState
      rw [List.range'_1_concat, List.foldl_append]
      simp only [List.foldl_cons, List.foldl_nil]
      rw [Nat.add_comm 1 k]
    have hfold := imeStep_fold ns0 ns0.length k
      ((rightBorderNodes ns0.length).getD (k + 1) 0) rfl hN hborder
      (levelRanks ns0.length (k + 1)) (imeState ns0 k).1 (imeState ns0 k).2
      (levelRanks_nodup _ _)
      (fun n hn => (mem_levelRanks _ _ n).mp hn)
      c1 c2
      (fun i hi hlev => c3 i hi (by omega))
      (fun _ => c4)
      (by
        intro hmem
        have hlevb : level ((rightBorderNodes ns0.length).getD (k + 1) 0) = k + 1 := by
          rw [hborder]
          exact level_ancK _ _
        have him : ns0.length ≤ (rightBorderNodes ns0.length).getD (k + 1) 0 := by
          by_contra hlt
          push_neg at hlt
          exact hmem ((mem_levelRanks _ _ _).mpr ⟨hlt, hlevb⟩)
        rw [hborder] at him
        exact rbi_spec_lift ns0 ns0.length k (imeState ns0 k).2 rfl hN him c4)
    obtain ⟨d1, d2, d3, d4, d5, d6⟩ := hfold
    rw [hstep]
    refine ⟨d1, d2, ?_, d6⟩
    intro i hi hlev
    rcases Nat.lt_or_ge (level i) (k + 1) with h | h
    · exact d3 i hi h
    · have hleq : level i = k + 1 := by omega
      exact d4 i ((mem_levelRanks _ _ i).mpr ⟨hi, hleq⟩)

/-- Exactness of `inside_max_end` after the `iit_base` constructor. -/
theorem buildIme_spec (ns0 : List Node) (hN : 1 ≤ ns0.length)
    (hinit : ∀ i, i < ns0.length → (nd ns0 i).inside_max_end = (nd ns0 i).endp) :
    (buildIme ns0).length = ns0.length ∧
    (∀ i, (nd (buildIme ns0) i).beg = (nd ns0 i).beg ∧
          (nd (buildIme ns0) i).endp = (nd ns0 i).endp ∧
          (nd (buildIme ns0) i).outside_max_end = (nd ns0 i).outside_max_end) ∧
    (∀ i, i < ns0.length →
      IsMaxEnd ns0 (sLo i) (sHi i) (nd (buildIme ns0) i).inside_max_end) := by
  rw [buildIme_eq ns0 hN]
  obtain ⟨c1, c2, c3, _⟩ := imeState_inv ns0 hN hinit (rootLevel ns0.length) (le_refl _)
  refine ⟨c1, c2, fun i hi => c3 i hi ?_⟩
  apply level_le_rootLevel ns0.length i hN
  have := fullSize_ge ns0.length
  omega

/-- `IsMaxEnd` only reads lengths and `endp` fields, so it transfers between
arrays that agree on those. -/
theorem isMaxEnd_congr (ns ns' : List Node) (hlen : ns.length = ns'.length)
    (hendp : ∀ i, (nd ns i).endp = (nd ns' i).endp) (lo hi : Nat) (v : Int)
    (h : IsMaxEnd ns lo hi v) : IsMaxEnd ns' lo hi v := by
  obtain ⟨hub, m, hm, h1, h2, h3⟩ := h
  constructor
  · intro m' hm' g1 g2
    rw [← hendp m']
    exact hub m' (by omega) g1 g2
  · exact ⟨m, by omega, h1, h2, by rw [← hendp m]; exact h3⟩

/-! ### The `outside_max_end` fill -/

theorem length_fillOutside (ns : List Node) : (fillOutside ns).length = ns.length := by
  unfold fillOutside
  rw [List.length_map, List.length_range]

theorem nd_fillOutside (ns : List Node) (i : Nat) (h : i < ns.length) :
    nd (fillOutside ns) i =
      (if 0 < lml i (level i) then
        { nd ns i with outside_max_end :=
            if (nd ns (walkLeq ns (nd ns i).beg (lml i (level i) - 1))).beg < (nd ns i).beg
            then runMax ns (walkLeq ns (nd ns i).beg (lml i (level i) - 1)) else PMIN }
      else nd ns i) := by
  show (fillOutside ns).getD i default = _
  unfold fillOutside
  rw [List.getD_eq_getElem?_getD, List.getElem?_map, List.getElem?_range h]
  rfl

theorem nd_fillOutside_big (ns : List Node) (i : Nat) (h : ns.length ≤ i) :
    nd (fillOutside ns) i = nd ns i := by
  show (fillOutside ns).getD i default = ns.getD i default
  rw [List.getD_eq_getElem?_getD, List.getD_eq_getElem?_getD]
  rw [List.getElem?_eq_none, List.getElem?_eq_none]
  · exact h
  · rw [length_fillOutside]
    exact h

theorem fillOutside_fields (ns : List Node) (i : Nat) :
    (nd (fillOutside ns) i).beg = (nd ns i).beg ∧
    (nd (fillOutside ns) i).endp = (nd ns i).endp ∧
    (nd (fillOutside ns) i).inside_max_end = (nd ns i).inside_max_end := by
  rcases Nat.lt_or_ge i ns.length with h | h
  · rw [nd_fillOutside ns i h]
    by_cases hc : 0 < lml i (level i)
    · rw [if_pos hc]
      exact ⟨rfl, rfl, rfl⟩
    · rw [if_neg hc]
      exact ⟨rfl, rfl, rfl⟩
  · rw [nd_fillOutside_big ns i h]
    exact ⟨rfl, rfl, rfl⟩

theorem walkLeq_le (ns : List Node) (b : Int) : ∀ j, walkLeq ns b j ≤ j := by
  intro j
  induction j with
  | zero => exact le_refl 0
  | succ j ih =>
    rw [walkLeq]
    by_cases h : (nd ns (j + 1)).beg = b
    · rw [if_pos h]
      omega
    · rw [if_neg h]

theorem walkLeq_above (ns : List Node) (b : Int) :
    ∀ j i, walkLeq ns b j < i → i ≤ j → (nd ns i).beg = b := by
  intro j
  induction j with
  | zero =>
    intro i h1 h2
    omega
  | succ j ih =>
    intro i h1 h2
    rw [walkLeq] at h1
    by_cases h : (nd ns (j + 1)).beg = b
    · rw [if_pos h] at h1
      rcases Nat.lt_or_ge i (j + 1) with hi | hi
      · exact ih i h1 (by omega)
      · have : i = j + 1 := by omega
        rw [this]
        exact h
    · rw [if_neg h] at h1
      omega

theorem walkLeq_stop (ns : List Node) (b : Int) :
    ∀ j, (nd ns (walkLeq ns b j)).beg ≠ b ∨ walkLeq ns b j = 0 := by
  intro j
  induction j with
  | zero => exact Or.inr rfl
  | succ j ih =>
    rw [walkLeq]
    by_cases h : (nd ns (j + 1)).beg = b
    · rw [if_pos h]
      exact ih
    · rw [if_neg h]
      exact Or.inl h

theorem runMax_spec (ns : List Node) : ∀ j, j < ns.length → IsMaxEnd ns 0 j (runMax ns j) := by
  intro j
  induction j with
  | zero =>
    intro hj
    rw [runMax]
    exact isMaxEnd_leaf ns 0 hj
  | succ j ih =>
    intro hj
    obtain ⟨hub, w, hw, hw1, hw2, hwe⟩ := ih (by omega)
    rw [runMax]
    constructor
    · intro m hm h1 h2
      rcases Nat.lt_or_ge m (j + 1) with h | h
      · exact le_trans (hub m hm h1 (by omega)) (le_max_left _ _)
      · have : m = j + 1 := by omega
        rw [this]
        exact le_max_right _ _
    · rcases le_total (runMax ns j) (nd ns (j + 1)).endp with h | h
      · rw [max_eq_right h]
        exact ⟨j + 1, hj, by omega, le_refl _, rfl⟩
      · rw [max_eq_left h]
        exact ⟨w, hw, hw1, by omega, hwe⟩

/-- In a beg-sorted array, an outside node with strictly smaller `beg` must
rank strictly below the subtree's leftmost leaf. -/
theorem outside_lt_iff (ns : List Node)
    (hsort : ∀ i j, i ≤ j → j < ns.length → (nd ns i).beg ≤ (nd ns j).beg)
    (r m : Nat) (hm : m < ns.length) :
    (¬ inSubtree r m ∧ (nd ns m).beg < (nd ns r).beg) ↔
      (m < sLo r ∧ (nd ns m).beg < (nd ns r).beg) := by
  constructor
  · rintro ⟨h1, h2⟩
    refine ⟨?_, h2⟩
    by_contra hge
    push_neg at hge
    rcases Nat.lt_or_ge (sHi r) m with h | h
    · have hrm : r ≤ m := by
        have := self_le_sHi r
        omega
      have := hsort r m hrm hm
      omega
    · exact h1 ⟨hge, h⟩
  · rintro ⟨h1, h2⟩
    refine ⟨?_, h2⟩
    intro hin
    have := hin.1
    omega

/-- Exactness of the `outside_max_end` fill of the iitii constructor. -/
theorem fillOutside_spec (ns : List Node)
    (hsort : ∀ i j, i ≤ j → j < ns.length → (nd ns i).beg ≤ (nd ns j).beg)
    (home : ∀ i, i < ns.length → (nd ns i).outside_max_end = PMIN)
    (r : Nat) (hr : r < ns.length) :
    (∀ m, m < ns.length → ¬ inSubtree r m → (nd ns m).beg < (nd ns r).beg →
        (nd ns m).endp ≤ (nd (fillOutside ns) r).outside_max_end) ∧
    ((∃ m, m < ns.length ∧ ¬ inSubtree r m ∧ (nd ns m).beg < (nd ns r).beg) →
      ∃ m, m < ns.length ∧ ¬ inSubtree r m ∧ (nd ns m).beg < (nd ns r).beg ∧
        (nd (fillOutside ns) r).outside_max_end = (nd ns m).endp) ∧
    ((∀ m, m < ns.length → ¬ inSubtree r m → ¬ ((nd ns m).beg < (nd ns r).beg)) →
      (nd (fillOutside ns) r).outside_max_end = PMIN) := by
  have hll : lml r (level r) = sLo r := rfl
  rw [nd_fillOutside ns r hr, hll]
  by_cases hc : 0 < sLo r
  · rw [if_pos hc]
    set leq := walkLeq ns (nd ns r).beg (sLo r - 1) with hleq
    have hle : leq ≤ sLo r - 1 := walkLeq_le ns (nd ns r).beg (sLo r - 1)
    have hslr : sLo r ≤ r := sLo_le_self r
    have hleqN : leq < ns.length := by omega
    by_cases hb : (nd ns leq).beg < (nd ns r).beg
    · rw [if_pos hb]
      show (∀ m, _) ∧ _
      have hSsub : ∀ m, m < ns.length → ¬ inSubtree r m →
          (nd ns m).beg < (nd ns r).beg → m ≤ leq := by
        intro m hm h1 h2
        have hml : m < sLo r := ((outside_lt_iff ns hsort r m hm).mp ⟨h1, h2⟩).1
        by_contra hgt
        push_neg at hgt
        have := walkLeq_above ns (nd ns r).beg (sLo r - 1) m hgt (by omega)
        omega
      have hSsup : ∀ m, m ≤ leq → ¬ inSubtree r m ∧ (nd ns m).beg < (nd ns r).beg := by
        intro m hmle
        have hmN : m < ns.length := by omega
        have hble : (nd ns m).beg ≤ (nd ns leq).beg := hsort m leq hmle hleqN
        refine ((outside_lt_iff ns hsort r m hmN).mpr ⟨by omega, by omega⟩)
      obtain ⟨hub, w, hw, hw1, hw2, hwe⟩ := runMax_spec ns leq hleqN
      refine ⟨?_, ?_, ?_⟩
      · intro m hm h1 h2
        exact hub m hm (Nat.zero_le m) (hSsub m hm h1 h2)
      · intro _
        obtain ⟨g1, g2⟩ := hSsup w hw2
        exact ⟨w, hw, g1, g2, hwe⟩
      · intro hemp
        exfalso
        obtain ⟨g1, g2⟩ := hSsup leq (le_refl leq)
        exact hemp leq hleqN g1 g2
    · rw [if_neg hb]
      have hbeq : (nd ns leq).beg = (nd ns r).beg := by
        have : (nd ns leq).beg ≤ (nd ns r).beg := hsort leq r (by omega) hr
        omega
      have hleq0 : leq = 0 := by
        rcases walkLeq_stop ns (nd ns r).beg (sLo r - 1) with h | h
        · exact absurd hbeq h
        · exact h
      have hSempty : ∀ m, m < ns.length → ¬ inSubtree r m →
          ¬ ((nd ns m).beg < (nd ns r).beg) := by
        intro m hm h1 h2
        have hml : m < sLo r := ((outside_lt_iff ns hsort r m hm).mp ⟨h1, h2⟩).1
        rcases Nat.eq_zero_or_pos m with h0 | h0
        · rw [h0, ← hleq0] at h2
          omega
        · have := walkLeq_above ns (nd ns r).beg (sLo r - 1) m (by omega) (by omega)
          omega
      refine ⟨?_, ?_, fun _ => rfl⟩
      · intro m hm h1 h2
        exact absurd h2 (hSempty m hm h1)
      · rintro ⟨m, hm, h1, h2⟩
        exact absurd h2 (hSempty m hm h1)
  · rw [if_neg hc]
    have hempty : ∀ m, ¬ (m < sLo r) := by omega
    refine ⟨?_, ?_, fun _ => home r hr⟩
    · intro m hm h1 h2
      exact absurd ((outside_lt_iff ns hsort r m hm).mp ⟨h1, h2⟩).1 (hempty m)
    · rintro ⟨m, hm, h1, h2⟩
      exact absurd ((outside_lt_iff ns hsort r m hm).mp ⟨h1, h2⟩).1 (hempty m)

/-! ### Facts about fully built indexes -/

theorem buildIitii_eq (items : List (Int × Int)) :
    buildIitii items = fillOutside (buildIit items) := rfl

/-- Length, sortedness and `inside_max_end` exactness of the built plain
index. -/
theorem buildIit_facts (items : List (Int × Int)) (hN : 1 ≤ items.length) :
    (buildIit items).length = items.length ∧
    (∀ i j, i ≤ j → j < items.length →
      (nd (buildIit items) i).beg ≤ (nd (buildIit items) j).beg) ∧
    (∀ i, i < items.length →
      IsMaxEnd (buildIit items) (sLo i) (sHi i) (nd (buildIit items) i).inside_max_end) ∧
    (∀ i, (nd (buildIit items) i).beg = (nd (sortNodes items) i).beg ∧
          (nd (buildIit items) i).endp = (nd (sortNodes items) i).endp ∧
          (nd (buildIit items) i).outside_max_end = (nd (sortNodes items) i).outside_max_end) := by
  have hlenS : (sortNodes items).length = items.length := length_sortNodes items
  have hinit : ∀ i, i < (sortNodes items).length →
      (nd (sortNodes items) i).inside_max_end = (nd (sortNodes items) i).endp :=
    fun i hi => (sortNodes_init items i hi).1
  obtain ⟨c1, c2, c3⟩ := buildIme_spec (sortNodes items) (by omega) hinit
  have c1' : (buildIit items).length = (sortNodes items).length := c1
  have c2' : ∀ i, (nd (buildIit items) i).beg = (nd (sortNodes items) i).beg ∧
      (nd (buildIit items) i).endp = (nd (sortNodes items) i).endp ∧
      (nd (buildIit items) i).outside_max_end = (nd (sortNodes items) i).outside_max_end := c2
  have c3' : ∀ i, i < (sortNodes items).length →
      IsMaxEnd (sortNodes items) (sLo i) (sHi i)
        (nd (buildIit items) i).inside_max_end := c3
  refine ⟨by omega, ?_, ?_, c2'⟩
  · intro i j hij hj
    rw [(c2' i).1, (c2' j).1]
    exact sortNodes_begs items i j hij (by omega)
  · intro i hi
    have := c3' i (by omega)
    exact isMaxEnd_congr (sortNodes items) (buildIit items) (by omega)
      (fun m => ((c2' m).2.1).symm) (sLo i) (sHi i) _ this

/-- Length, sortedness, `inside_max_end` exactness and `outside_max_end`
exactness of the built iitii index. -/
theorem buildIitii_facts (items : List (Int × Int)) (hN : 1 ≤ items.length) :
    (buildIitii items).length = items.length ∧
    (∀ i j, i ≤ j → j < items.length →
      (nd (buildIitii items) i).beg ≤ (nd (buildIitii items) j).beg) ∧
    (∀ i, i < items.length →
      IsMaxEnd (buildIitii items) (sLo i) (sHi i)
        (nd (buildIitii items) i).inside_max_end) ∧
    (∀ r, r < items.length →
      (∀ m, m < items.length → ¬ inSubtree r m →
        (nd (buildIitii items) m).beg < (nd (buildIitii items) r).beg →
        (nd (buildIitii items) m).endp ≤ (nd (buildIitii items) r).outside_max_end) ∧
      ((∃ m, m < items.length ∧ ¬ inSubtree r m ∧
          (nd (buildIitii items) m).beg < (nd (buildIitii items) r).beg) →
        ∃ m, m < items.length ∧ ¬ inSubtree r m ∧
          (nd (buildIitii items) m).beg < (nd (buildIitii items) r).beg ∧
          (nd (buildIitii items) r).outside_max_end = (nd (buildIitii items) m).endp) ∧
      ((∀ m, m < items.length → ¬ inSubtree r m →
          ¬ ((nd (buildIitii items) m).beg < (nd (buildIitii items) r).beg)) →
        (nd (buildIitii items) r).outside_max_end = PMIN)) := by
  obtain ⟨b1, b2, b3, b4⟩ := buildIit_facts items hN
  have hfo : ∀ i, (nd (buildIitii items) i).beg = (nd (buildIit items) i).beg ∧
      (nd (buildIitii items) i).endp = (nd (buildIit items) i).endp ∧
      (nd (buildIitii items) i).inside_max_end = (nd (buildIit items) i).inside_max_end := by
    intro i
    rw [buildIitii_eq]
    exact fillOutside_fields (buildIit items) i
  have hlen : (buildIitii items).length = items.length := by
    rw [buildIitii_eq, length_fillOutside]
    exact b1
  have hsortB : ∀ i j, i ≤ j → j < (buildIit items).length →
      (nd (buildIit items) i).beg ≤ (nd (buildIit items) j).beg := by
    intro i j hij hj
    exact b2 i j hij (by omega)
  have homeB : ∀ i, i < (buildIit items).length →
      (nd (buildIit items) i).outside_max_end = PMIN := by
    intro i hi
    rw [(b4 i).2.2]
    exact (sortNodes_init items i (by
      rw [length_sortNodes]
      omega)).2
  refine ⟨hlen, ?_, ?_, ?_⟩
  · intro i j hij hj
    rw [(hfo i).1, (hfo j).1]
    exact b2 i j hij hj
  · intro i hi
    rw [(hfo i).2.2]
    exact isMaxEnd_congr (buildIit items) (buildIitii items) (by omega)
      (fun m => ((hfo m).2.1).symm) (sLo i) (sHi i) _ (b3 i hi)
  · intro r hr
    obtain ⟨s1, s2, s3⟩ := fillOutside_spec (buildIit items) hsortB homeB r (by omega)
    have homeq : (nd (buildIitii items) r).outside_max_end
        = (nd (fillOutside (buildIit items)) r).outside_max_end := by
      rw [buildIitii_eq]
    refine ⟨?_, ?_, ?_⟩
    · intro m hm h1 h2
      rw [(hfo m).2.1, homeq]
      apply s1 m (by omega) h1
      rw [← (hfo m).1, ← (hfo r).1]
      exact h2
    · rintro ⟨m, hm, g1, g2⟩
      rw [(hfo m).1, (hfo r).1] at g2
      obtain ⟨w, hw, e1, e2, e3⟩ := s2 ⟨m, by omega, g1, g2⟩
      refine ⟨w, by omega, e1, ?_, ?_⟩
      · rw [(hfo w).1, (hfo r).1]
        exact e2
      · rw [homeq, (hfo w).2.1]
        exact e3
    · intro hemp
      rw [homeq]
      apply s3
      intro m hm h1
      rw [← (hfo m).1, ← (hfo r).1]
      exact hemp m (by omega) h1

/-! ### Correctness of the top-down scan -/

/-- Membership of the unrolled low-level traversal: over a consecutive rank
range of a beg-sorted array, the early `beg ≥ qend` stop loses nothing. -/
theorem scanLow_mem (ns : List Node)
    (hsort : ∀ i j, i ≤ j → j < ns.length → (nd ns i).beg ≤ (nd ns j).beg)
    (qbeg qend : Int) :
    ∀ len a, a + len ≤ ns.length →
      ∀ r, r ∈ (scanLow ns qbeg qend (List.range' a len)).2 ↔
        (a ≤ r ∧ r < a + len ∧ (nd ns r).beg < qend ∧ qbeg < (nd ns r).endp) := by
  intro len
  induction len with
  | zero =>
    intro a _ r
    rw [List.range'_zero]
    show r ∈ ([] : List Nat) ↔ _
    simp only [List.not_mem_nil, false_iff]
    omega
  | succ len ih =>
    intro a hle r
    rw [List.range'_succ, scanLow]
    by_cases hb : qend ≤ (nd ns a).beg
    · rw [if_pos hb]
      show r ∈ ([] : List Nat) ↔ _
      simp only [List.not_mem_nil, false_iff]
      rintro ⟨h1, h2, h3, h4⟩
      have : (nd ns a).beg ≤ (nd ns r).beg := hsort a r h1 (by omega)
      omega
    · rw [if_neg hb]
      push_neg at hb
      have hrest := ih (a + 1) (by omega) r
      show r ∈ (if qbeg < (nd ns a).endp
          then a :: (scanLow ns qbeg qend (List.range' (a + 1) len)).2
          else (scanLow ns qbeg qend (List.range' (a + 1) len)).2) ↔ _
      by_cases he : qbeg < (nd ns a).endp
      · rw [if_pos he]
        show r ∈ a :: _ ↔ _
        rw [List.mem_cons, hrest]
        constructor
        · rintro (rfl | ⟨h1, h2, h3, h4⟩)
          · exact ⟨le_refl _, by omega, hb, he⟩
          · exact ⟨by omega, by omega, h3, h4⟩
        · rintro ⟨h1, h2, h3, h4⟩
          rcases Nat.eq_or_lt_of_le h1 with rfl | hlt
          · exact Or.inl rfl
          · exact Or.inr ⟨by omega, by omega, h3, h4⟩
      · rw [if_neg he]
        show r ∈ _ ↔ _
        rw [hrest]
        constructor
        · rintro ⟨h1, h2, h3, h4⟩
          exact ⟨by omega, by omega, h3, h4⟩
        · rintro ⟨h1, h2, h3, h4⟩
          have hra : r ≠ a := by
            intro heq
            rw [heq] at h4
            exact he h4
          exact ⟨by omega, by omega, h3, h4⟩

theorem lml_eq_sLo (subtree k : Nat) (h : level subtree = k) : lml subtree k = sLo subtree := by
  unfold lml sLo
  rw [h]

theorem rml_eq_sHi (subtree k : Nat) (h : level subtree = k) : rml subtree k = sHi subtree := by
  unfold rml sHi
  rw [h]

/-- Membership of the `k ≤ 2` branch of the scan. -/
theorem scanLow_branch (ns : List Node)
    (hsort : ∀ i j, i ≤ j → j < ns.length → (nd ns i).beg ≤ (nd ns j).beg)
    (qbeg qend : Int) (k subtree : Nat) (hlev : level subtree = k)
    (hsub : subtree < ns.length) :
    ∀ r, r ∈ (scanLow ns qbeg qend
        (List.range' (lml subtree k)
          (min (rml subtree k) (ns.length - 1) + 1 - lml subtree k))).2 ↔
      (sLo subtree ≤ r ∧ r ≤ sHi subtree ∧ r < ns.length ∧
       (nd ns r).beg < qend ∧ qbeg < (nd ns r).endp) := by
  intro r
  have h1 := lml_eq_sLo subtree k hlev
  have h2 := rml_eq_sHi subtree k hlev
  have h3 : sLo subtree ≤ subtree := sLo_le_self subtree
  have h4 : subtree ≤ sHi subtree := self_le_sHi subtree
  have hlen : lml subtree k + (min (rml subtree k) (ns.length - 1) + 1 - lml subtree k)
      = min (rml subtree k) (ns.length - 1) + 1 := by
    rw [h1, h2]
    omega
  rw [scanLow_mem ns hsort qbeg qend _ _ (by omega) r, hlen, h1, h2]
  omega

/-- Membership characterization of the recursive scan: assuming the array is
beg-sorted and `inside_max_end` is an upper bound over every real subtree,
the scan of `(subtree, k)` returns exactly the real ranks of that subtree
whose intervals satisfy both query guards. -/
theorem scanGo_mem (ns : List Node)
    (hsort : ∀ i j, i ≤ j → j < ns.length → (nd ns i).beg ≤ (nd ns j).beg)
    (hub : ∀ t, t < ns.length → ∀ m, m < ns.length → inSubtree t m →
      (nd ns m).endp ≤ (nd ns t).inside_max_end) (qbeg qend : Int) :
    ∀ k subtree, level subtree = k →
      ∀ r, r ∈ (scanGo ns qbeg qend k subtree).2 ↔
        (sLo subtree ≤ r ∧ r ≤ sHi subtree ∧ r < ns.length ∧
         (nd ns r).beg < qend ∧ qbeg < (nd ns r).endp) := by
  intro k
  induction k with
  | zero =>
    intro subtree hlev r
    rw [scanGo]
    by_cases him : ns.length ≤ subtree
    · rw [if_pos him]
      show r ∈ ([] : List Nat) ↔ _
      simp only [List.not_mem_nil, false_iff]
      rw [sLo_of_level_zero subtree hlev]
      omega
    · rw [if_neg him]
      push_neg at him
      exact scanLow_branch ns hsort qbeg qend 0 subtree hlev him r
  | succ k ih =>
    intro subtree hlev r
    have hlb := leftc_bounds subtree k hlev
    have hrb := rightc_bounds subtree k hlev
    have hllev := level_leftc subtree k hlev
    have hrlev := level_rightc subtree k hlev
    have hge : 2 ^ (k + 1) - 1 ≤ subtree := ge_of_level subtree (k + 1) hlev
    have h3 : sLo subtree ≤ subtree := sLo_le_self subtree
    have h4 : subtree ≤ sHi subtree := self_le_sHi subtree
    rw [scanGo]
    by_cases him : ns.length ≤ subtree
    · rw [if_pos him]
      show r ∈ (scanGo ns qbeg qend k (leftc subtree (k + 1))).2 ↔ _
      rw [ih (leftc subtree (k + 1)) hllev r, hlb.1, hlb.2]
      constructor
      · rintro ⟨g1, g2, g3, g4, g5⟩
        exact ⟨g1, by omega, g3, g4, g5⟩
      · rintro ⟨g1, g2, g3, g4, g5⟩
        exact ⟨g1, by omega, g3, g4, g5⟩
    · rw [if_neg him]
      push_neg at him
      by_cases hk2 : k + 1 ≤ 2
      · rw [if_pos hk2]
        exact scanLow_branch ns hsort qbeg qend (k + 1) subtree hlev him r
      · rw [if_neg hk2]
        by_cases hguard : qbeg < (nd ns subtree).inside_max_end
        · rw [if_pos hguard]
          by_cases hbq : (nd ns subtree).beg < qend
          · rw [if_pos hbq]
            show r ∈ (scanGo ns qbeg qend k (leftc subtree (k + 1))).2 ++ _ ↔ _
            rw [List.mem_append]
            have hL := ih (leftc subtree (k + 1)) hllev r
            have hR := ih (rightc subtree (k + 1)) hrlev r
            rw [hlb.1, hlb.2] at hL
            rw [hrb.1, hrb.2] at hR
            by_cases hself : qbeg < (nd ns subtree).endp
            · rw [if_pos hself]
              rw [List.mem_cons]
              constructor
              · rintro (h | rfl | h)
                · obtain ⟨g1, g2, g3, g4, g5⟩ := hL.mp h
                  exact ⟨g1, by omega, g3, g4, g5⟩
                · exact ⟨h3, h4, him, hbq, hself⟩
                · obtain ⟨g1, g2, g3, g4, g5⟩ := hR.mp h
                  exact ⟨by omega, g2, g3, g4, g5⟩
              · rintro ⟨g1, g2, g3, g4, g5⟩
                rcases Nat.lt_trichotomy r subtree with h | h | h
                · exact Or.inl (hL.mpr ⟨g1, by omega, g3, g4, g5⟩)
                · exact Or.inr (Or.inl h)
                · exact Or.inr (Or.inr (hR.mpr ⟨by omega, g2, g3, g4, g5⟩))
            · rw [if_neg hself]
              constructor
              · rintro (h | h)
                · obtain ⟨g1, g2, g3, g4, g5⟩ := hL.mp h
                  exact ⟨g1, by omega, g3, g4, g5⟩
                · obtain ⟨g1, g2, g3, g4, g5⟩ := hR.mp h
                  exact ⟨by omega, g2, g3, g4, g5⟩
              · rintro ⟨g1, g2, g3, g4, g5⟩
                rcases Nat.lt_trichotomy r subtree with h | h | h
                · exact Or.inl (hL.mpr ⟨g1, by omega, g3, g4, g5⟩)
                · exfalso
                  rw [← h] at hself
                  exact hself g5
                · exact Or.inr (hR.mpr ⟨by omega, g2, g3, g4, g5⟩)
          · rw [if_neg hbq]
            push_neg at hbq
            show r ∈ (scanGo ns qbeg qend k (leftc subtree (k + 1))).2 ↔ _
            have hL := ih (leftc subtree (k + 1)) hllev r
            rw [hlb.1, hlb.2] at hL
            rw [hL]
            constructor
            · rintro ⟨g1, g2, g3, g4, g5⟩
              exact ⟨g1, by omega, g3, g4, g5⟩
            · rintro ⟨g1, g2, g3, g4, g5⟩
              refine ⟨g1, ?_, g3, g4, g5⟩
              have hrs : r < subtree := by
                by_contra hge'
                push_neg at hge'
                have : (nd ns subtree).beg ≤ (nd ns r).beg := hsort subtree r hge' g3
                omega
              omega
        · rw [if_neg hguard]
          push_neg at hguard
          show r ∈ ([] : List Nat) ↔ _
          simp only [List.not_mem_nil, false_iff]
          rintro ⟨g1, g2, g3, g4, g5⟩
          have : (nd ns r).endp ≤ (nd ns subtree).inside_max_end :=
            hub subtree him r g3 ⟨g1, g2⟩
          omega

theorem scanLow_sublist (ns : List Node) (qbeg qend : Int) :
    ∀ L : List Nat, ((scanLow ns qbeg qend L).2).Sublist L := by
  intro L
  induction L with
  | nil => exact List.Sublist.refl []
  | cons a rs ih =>
    rw [scanLow]
    by_cases hb : qend ≤ (nd ns a).beg
    · rw [if_pos hb]
      exact List.nil_sublist _
    · rw [if_neg hb]
      show (if qbeg < (nd ns a).endp then a :: (scanLow ns qbeg qend rs).2
            else (scanLow ns qbeg qend rs).2).Sublist (a :: rs)
      by_cases he : qbeg < (nd ns a).endp
      · rw [if_pos he]
        exact List.Sublist.cons₂ a ih
      · rw [if_neg he]
        exact List.Sublist.cons a ih

/-- The scan reports ranks in strictly increasing order (in particular,
without duplicates). -/
theorem scanGo_pairwise (ns : List Node)
    (hsort : ∀ i j, i ≤ j → j < ns.length → (nd ns i).beg ≤ (nd ns j).beg)
    (hub : ∀ t, t < ns.length → ∀ m, m < ns.length → inSubtree t m →
      (nd ns m).endp ≤ (nd ns t).inside_max_end) (qbeg qend : Int) :
    ∀ k subtree, level subtree = k →
      List.Pairwise (· < ·) (scanGo ns qbeg qend k subtree).2 := by
  intro k
  induction k with
  | zero =>
    intro subtree hlev
    rw [scanGo]
    by_cases him : ns.length ≤ subtree
    · rw [if_pos him]
      exact List.Pairwise.nil
    · rw [if_neg him]
      exact List.Pairwise.sublist (scanLow_sublist ns qbeg qend _) (List.pairwise_lt_range' _ _)
  | succ k ih =>
    intro subtree hlev
    have hlb := leftc_bounds subtree k hlev
    have hrb := rightc_bounds subtree k hlev
    have hllev := level_leftc subtree k hlev
    have hrlev := level_rightc subtree k hlev
    rw [scanGo]
    by_cases him : ns.length ≤ subtree
    · rw [if_pos him]
      exact ih (leftc subtree (k + 1)) hllev
    · rw [if_neg him]
      push_neg at him
      by_cases hk2 : k + 1 ≤ 2
      · rw [if_pos hk2]
        exact List.Pairwise.sublist (scanLow_sublist ns qbeg qend _) (List.pairwise_lt_range' _ _)
      · rw [if_neg hk2]
        by_cases hguard : qbeg < (nd ns subtree).inside_max_end
        · rw [if_pos hguard]
          by_cases hbq : (nd ns subtree).beg < qend
          · rw [if_pos hbq]
            show List.Pairwise (· < ·)
              ((scanGo ns qbeg qend k (leftc subtree (k + 1))).2 ++ _)
            rw [List.pairwise_append]
            have hmemL := scanGo_mem ns hsort hub qbeg qend k (leftc subtree (k + 1)) hllev
            have hmemR := scanGo_mem ns hsort hub qbeg qend k (rightc subtree (k + 1)) hrlev
            have hLlt : ∀ x ∈ (scanGo ns qbeg qend k (leftc subtree (k + 1))).2,
                x < subtree := by
              intro x hx
              obtain ⟨g1, g2, g3, _⟩ := (hmemL x).mp hx
              rw [hlb.2] at g2
              have := ge_of_level subtree (k + 1) hlev
              have := two_pow_pos (k + 1)
              omega
            have hRgt : ∀ x ∈ (scanGo ns qbeg qend k (rightc subtree (k + 1))).2,
                subtree < x := by
              intro x hx
              obtain ⟨g1, g2, g3, _⟩ := (hmemR x).mp hx
              rw [hrb.1] at g1
              omega
            refine ⟨ih _ hllev, ?_, ?_⟩
            · by_cases hself : qbeg < (nd ns subtree).endp
              · rw [if_pos hself]
                exact List.Pairwise.cons (fun x hx => hRgt x hx) (ih _ hrlev)
              · rw [if_neg hself]
                exact ih _ hrlev
            · intro a ha b hb
              have haS := hLlt a ha
              by_cases hself : qbeg < (nd ns subtree).endp
              · rw [if_pos hself] at hb
                rcases List.mem_cons.mp hb with rfl | hb'
                · exact haS
                · have := hRgt b hb'
                  omega
              · rw [if_neg hself] at hb
                have := hRgt b hb
                omega
          · rw [if_neg hbq]
            exact ih _ hllev
        · rw [if_neg hguard]
          exact List.Pairwise.nil

/-- Membership characterization of the root-start overlap query. -/
theorem iitOverlap_mem (ns : List Node)
    (hsort : ∀ i j, i ≤ j → j < ns.length → (nd ns i).beg ≤ (nd ns j).beg)
    (hub : ∀ t, t < ns.length → ∀ m, m < ns.length → inSubtree t m →
      (nd ns m).endp ≤ (nd ns t).inside_max_end) (qbeg qend : Int) (r : Nat) :
    r ∈ (iitOverlap ns qbeg qend).2 ↔
      (r < ns.length ∧ (nd ns r).beg < qend ∧ qbeg < (nd ns r).endp) := by
  unfold iitOverlap
  rw [scanGo_mem ns hsort hub qbeg qend (rootLevel ns.length) (rootRank ns.length)
    (level_rootRank _) r]
  constructor
  · rintro ⟨_, _, g3, g4, g5⟩
    exact ⟨g3, g4, g5⟩
  · rintro ⟨g1, g2, g3⟩
    have hN : 1 ≤ ns.length := by omega
    have h1 := sHi_rootRank ns.length hN
    have h2 := fullSize_ge ns.length
    have h3 := sLo_rootRank ns.length
    exact ⟨by omega, by omega, g1, g2, g3⟩

/-! ### `outside_min_beg` -/

/-- Lower-bound half of the minimality of `outside_min_beg`: it is at most
the `beg` of any real node outside the subtree with `beg` at least the
subtree root's. -/
theorem outsideMinBeg_le (ns : List Node)
    (hsort : ∀ i j, i ≤ j → j < ns.length → (nd ns i).beg ≤ (nd ns j).beg)
    (s k : Nat) (hlev : level s = k) (hs : s < ns.length)
    (m : Nat) (hm : m < ns.length) (hout : ¬ inSubtree s m)
    (hbeg : (nd ns s).beg ≤ (nd ns m).beg) :
    outsideMinBeg ns s k ≤ (nd ns m).beg := by
  unfold outsideMinBeg
  have h1 := lml_eq_sLo s k hlev
  have h2 := rml_eq_sHi s k hlev
  have h3 : sLo s ≤ s := sLo_le_self s
  have h4 : s ≤ sHi s := self_le_sHi s
  by_cases hc : 0 < lml s k ∧ (nd ns (lml s k - 1)).beg = (nd ns s).beg
  · rw [if_pos hc]
    exact hbeg
  · rw [if_neg hc]
    have hmgt : sHi s < m := by
      rcases Nat.lt_or_ge m (sLo s) with hlt | hge
      · exfalso
        have hl0 : 0 < sLo s := by omega
        have hble : (nd ns m).beg ≤ (nd ns (sLo s - 1)).beg :=
          hsort m (sLo s - 1) (by omega) (by omega)
        have hble2 : (nd ns (sLo s - 1)).beg ≤ (nd ns s).beg :=
          hsort (sLo s - 1) s (by omega) hs
        exact hc ⟨by omega, by rw [h1]; omega⟩
      · rcases Nat.lt_or_ge (sHi s) m with hgt | hle
        · exact hgt
        · exact absurd ⟨hge, hle⟩ hout
    by_cases hr : rml s k < ns.length - 1
    · rw [if_pos hr]
      apply hsort (rml s k + 1) m (by omega) hm
    · rw [if_neg hr]
      exfalso
      omega

/-- Attainment/emptiness half of the minimality of `outside_min_beg`. -/
theorem outsideMinBeg_attained (ns : List Node)
    (hsort : ∀ i j, i ≤ j → j < ns.length → (nd ns i).beg ≤ (nd ns j).beg)
    (s k : Nat) (hlev : level s = k) (hs : s < ns.length) :
    ((∃ m, m < ns.length ∧ ¬ inSubtree s m ∧ (nd ns s).beg ≤ (nd ns m).beg) →
      ∃ m, m < ns.length ∧ ¬ inSubtree s m ∧ (nd ns s).beg ≤ (nd ns m).beg ∧
        outsideMinBeg ns s k = (nd ns m).beg) ∧
    ((∀ m, m < ns.length → ¬ inSubtree s m → ¬ ((nd ns s).beg ≤ (nd ns m).beg)) →
      outsideMinBeg ns s k = PMAX) := by
  unfold outsideMinBeg
  have h1 := lml_eq_sLo s k hlev
  have h2 := rml_eq_sHi s k hlev
  have h3 : sLo s ≤ s := sLo_le_self s
  have h4 : s ≤ sHi s := self_le_sHi s
  by_cases hc : 0 < lml s k ∧ (nd ns (lml s k - 1)).beg = (nd ns s).beg
  · rw [if_pos hc]
    obtain ⟨hl0, hbe⟩ := hc
    have hwit : sLo s - 1 < ns.length ∧ ¬ inSubtree s (sLo s - 1) ∧
        (nd ns s).beg ≤ (nd ns (sLo s - 1)).beg := by
      refine ⟨by omega, ?_, by rw [← h1, hbe]⟩
      intro hin
      have := hin.1
      omega
    constructor
    · intro _
      exact ⟨sLo s - 1, hwit.1, hwit.2.1, hwit.2.2, by rw [← h1, hbe]⟩
    · intro hemp
      exact absurd hwit.2.2 (hemp _ hwit.1 hwit.2.1)
  · rw [if_neg hc]
    by_cases hr : rml s k < ns.length - 1
    · rw [if_pos hr]
      have hwit : rml s k + 1 < ns.length ∧ ¬ inSubtree s (rml s k + 1) ∧
          (nd ns s).beg ≤ (nd ns (rml s k + 1)).beg := by
        refine ⟨by omega, ?_, hsort s (rml s k + 1) (by omega) (by omega)⟩
        intro hin
        have := hin.2
        omega
      constructor
      · intro _
        exact ⟨rml s k + 1, hwit.1, hwit.2.1, hwit.2.2, rfl⟩
      · intro hemp
        exact absurd hwit.2.2 (hemp _ hwit.1 hwit.2.1)
    · rw [if_neg hr]
      constructor
      · rintro ⟨m, hm, hout, hbeg⟩
        exfalso
        rcases Nat.lt_or_ge m (sLo s) with hlt | hge
        · have hl0 : 0 < sLo s := by omega
          have hble : (nd ns m).beg ≤ (nd ns (sLo s - 1)).beg :=
            hsort m (sLo s - 1) (by omega) (by omega)
          have hble2 : (nd ns (sLo s - 1)).beg ≤ (nd ns s).beg :=
            hsort (sLo s - 1) s (by omega) hs
          exact hc ⟨by omega, by rw [h1]; omega⟩
        · rcases Nat.lt_or_ge (sHi s) m with hgt | hle
          · omega
          · exact hout ⟨hge, hle⟩
      · intro _
        rfl

/-! ### The climb loop -/

/-- The parent of a non-top-level node of the full tree stays inside the
full tree. -/
theorem parentArith_lt_fullSize (x k K : Nat) (hlev : level x = k) (hk : k < K)
    (hx : x < 2 ^ (K + 1) - 1) : parentArith x k < 2 ^ (K + 1) - 1 := by
  rw [parentArith_eq_ancK x k hlev]
  unfold ancK
  rw [show k + 1 + 1 = k + 2 from rfl]
  obtain ⟨s, hs⟩ : (2:Nat) ^ (k + 2) ∣ 2 ^ (K + 1) := pow_dvd_pow 2 (by omega)
  have hs1 : 1 ≤ s := by
    rcases Nat.eq_zero_or_pos s with h0 | h1
    · rw [h0, Nat.mul_zero] at hs
      have := two_pow_pos (K + 1)
      omega
    · exact h1
  have ht : 2 ^ (k + 2) * (x / 2 ^ (k + 2)) ≤ x := by
    rw [Nat.mul_comm]
    exact Nat.div_mul_le_self x _
  have hts : x / 2 ^ (k + 2) < s := by
    have h2 : 2 ^ (k + 2) * (x / 2 ^ (k + 2)) < 2 ^ (k + 2) * s := by omega
    exact Nat.lt_of_mul_lt_mul_left h2
  have hmul : 2 ^ (k + 2) * (x / 2 ^ (k + 2)) ≤ 2 ^ (k + 2) * (s - 1) :=
    Nat.mul_le_mul_left _ (by omega)
  have he : 2 ^ (k + 2) * s = 2 ^ (k + 2) * (s - 1) + 2 ^ (k + 2) := by
    cases s with
    | zero => omega
    | succ s' => simp [Nat.mul_succ]
  have e2 : (2:Nat) ^ (k + 2) = 2 * 2 ^ (k + 1) := by ring
  have := two_pow_pos (k + 1)
  omega

/-- Once the climb guard is false the loop returns immediately, whatever the
fuel. -/
theorem climbGo_exit (ns : List Node) (root : Nat) (qbeg qend : Int) (p k0 : Nat)
    (h : ¬ (p ≠ root ∧ climbCond ns qbeg qend p k0)) :
    ∀ fuel, climbGo ns root qbeg qend fuel p k0 = (p, k0) := by
  intro fuel
  cases fuel with
  | zero => rfl
  | succ fuel => rw [climbGo, if_neg h]

/-- The climb loop with fuel `root_level - level(start)` maintains the level
invariant and exits with the guard false (or at the root): the C++ `while`
loop terminates within that many iterations. -/
theorem climbGo_spec (ns : List Node) (qbeg qend : Int) (hN : 1 ≤ ns.length) :
    ∀ fuel p k0, level p = k0 → p < fullSize ns.length →
      fuel = rootLevel ns.length - k0 →
      level (climbGo ns (rootRank ns.length) qbeg qend fuel p k0).1
          = (climbGo ns (rootRank ns.length) qbeg qend fuel p k0).2 ∧
      (climbGo ns (rootRank ns.length) qbeg qend fuel p k0).1 < fullSize ns.length ∧
      k0 ≤ (climbGo ns (rootRank ns.length) qbeg qend fuel p k0).2 ∧
      (climbGo ns (rootRank ns.length) qbeg qend fuel p k0).2 ≤ rootLevel ns.length ∧
      ((climbGo ns (rootRank ns.length) qbeg qend fuel p k0).1 = rootRank ns.length ∨
        climbCond ns qbeg qend (climbGo ns (rootRank ns.length) qbeg qend fuel p k0).1
          (climbGo ns (rootRank ns.length) qbeg qend fuel p k0).2 = false) := by
  intro fuel
  induction fuel with
  | zero =>
    intro p k0 hlev hfs hfuel
    have hk0le : k0 ≤ rootLevel ns.length := by
      rw [← hlev]
      exact level_le_rootLevel ns.length p hN hfs
    have hk0 : k0 = rootLevel ns.length := by omega
    have hroot : p = rootRank ns.length := by
      apply eq_rootRank ns.length p hN hfs
      rw [hlev, hk0]
    exact ⟨hlev, hfs, le_refl _, by show k0 ≤ rootLevel ns.length; omega, Or.inl hroot⟩
  | succ fuel ih =>
    intro p k0 hlev hfs hfuel
    rw [climbGo]
    by_cases hg : p ≠ rootRank ns.length ∧ climbCond ns qbeg qend p k0
    · rw [if_pos hg]
      have hk0le : k0 ≤ rootLevel ns.length := by
        rw [← hlev]
        exact level_le_rootLevel ns.length p hN hfs
      have hk0lt : k0 < rootLevel ns.length := by
        rcases Nat.lt_or_ge k0 (rootLevel ns.length) with h | h
        · exact h
        · exfalso
          have hk0 : k0 = rootLevel ns.length := by omega
          exact hg.1 (eq_rootRank ns.length p hN hfs (by rw [hlev, hk0]))
      have hplev := level_parentArith p k0 hlev
      have hpfs : parentArith p k0 < fullSize ns.length := by
        rw [fullSize_eq ns.length hN] at hfs ⊢
        exact parentArith_lt_fullSize p k0 (rootLevel ns.length) hlev hk0lt hfs
      have hres := ih (parentArith p k0) (k0 + 1) hplev hpfs (by omega)
      exact ⟨hres.1, hres.2.1, by omega, hres.2.2.2.1, hres.2.2.2.2⟩
    · rw [if_neg hg]
      have hk0le : k0 ≤ rootLevel ns.length := by
        rw [← hlev]
        exact level_le_rootLevel ns.length p hN hfs
      refine ⟨hlev, hfs, le_refl _, hk0le, ?_⟩
      by_cases hp : p = rootRank ns.length
      · exact Or.inl hp
      · right
        by_cases hcond : climbCond ns qbeg qend p k0 = true
        · exact absurd ⟨hp, hcond⟩ hg
        · simpa using hcond

/-- More fuel than needed does not change the climb's result. -/
theorem climbGo_stable (ns : List Node) (qbeg qend : Int) (hN : 1 ≤ ns.length) :
    ∀ fuel p k0 extra, level p = k0 → p < fullSize ns.length →
      fuel = rootLevel ns.length - k0 →
      climbGo ns (rootRank ns.length) qbeg qend (fuel + extra) p k0
        = climbGo ns (rootRank ns.length) qbeg qend fuel p k0 := by
  intro fuel
  induction fuel with
  | zero =>
    intro p k0 extra hlev hfs hfuel
    have hres := climbGo_spec ns qbeg qend hN 0 p k0 hlev hfs hfuel
    have h0 : climbGo ns (rootRank ns.length) qbeg qend 0 p k0 = (p, k0) := rfl
    rw [h0] at hres ⊢
    apply climbGo_exit
    rintro ⟨hp, hcond⟩
    rcases hres.2.2.2.2 with h | h
    · exact hp h
    · rw [h] at hcond
      exact Bool.false_ne_true hcond
  | succ fuel ih =>
    intro p k0 extra hlev hfs hfuel
    by_cases hg : p ≠ rootRank ns.length ∧ climbCond ns qbeg qend p k0
    · have e1 : fuel + 1 + extra = (fuel + extra) + 1 := by omega
      rw [e1, climbGo, if_pos hg, climbGo, if_pos hg]
      have hk0le : k0 ≤ rootLevel ns.length := by
        rw [← hlev]
        exact level_le_rootLevel ns.length p hN hfs
      have hk0lt : k0 < rootLevel ns.length := by
        rcases Nat.lt_or_ge k0 (rootLevel ns.length) with h | h
        · exact h
        · exact absurd (eq_rootRank ns.length p hN hfs (by rw [hlev]; omega)) hg.1
      have hplev := level_parentArith p k0 hlev
      have hpfs : parentArith p k0 < fullSize ns.length := by
        rw [fullSize_eq ns.length hN] at hfs ⊢
        exact parentArith_lt_fullSize p k0 (rootLevel ns.length) hlev hk0lt hfs
      exact ih (parentArith p k0) (k0 + 1) extra hplev hpfs (by omega)
    · rw [climbGo_exit ns _ qbeg qend p k0 hg, climbGo_exit ns _ qbeg qend p k0 hg]

theorem length_buildIit (items : List (Int × Int)) :
    (buildIit items).length = items.length := by
  rcases Nat.eq_zero_or_pos items.length with h0 | h1
  · show (buildIme (sortNodes items)).length = items.length
    rw [buildIme_nil (sortNodes items) (by rw [length_sortNodes]; exact h0)]
    rw [length_sortNodes]
  · exact (buildIit_facts items h1).1

theorem length_buildIitii (items : List (Int × Int)) :
    (buildIitii items).length = items.length := by
  rw [buildIitii_eq, length_fillOutside]
  exact length_buildIit items

theorem buildIitii_sorted (items : List (Int × Int)) :
    ∀ i j, i ≤ j → j < (buildIitii items).length →
      (nd (buildIitii items) i).beg ≤ (nd (buildIitii items) j).beg := by
  intro i j hij hj
  rw [length_buildIitii] at hj
  have h1 : 1 ≤ items.length := by omega
  exact (buildIitii_facts items h1).2.1 i j hij hj

theorem buildIitii_ub (items : List (Int × Int)) :
    ∀ t, t < (buildIitii items).length → ∀ m, m < (buildIitii items).length →
      inSubtree t m → (nd (buildIitii items) m).endp
        ≤ (nd (buildIitii items) t).inside_max_end := by
  intro t ht m hm hin
  rw [length_buildIitii] at ht hm
  have h1 : 1 ≤ items.length := by omega
  exact ((buildIitii_facts items h1).2.2.1 t ht).1 m (by
      rw [length_buildIitii]; exact hm) hin.1 hin.2

theorem buildIit_sorted (items : List (Int × Int)) :
    ∀ i j, i ≤ j → j < (buildIit items).length →
      (nd (buildIit items) i).beg ≤ (nd (buildIit items) j).beg := by
  intro i j hij hj
  rw [length_buildIit] at hj
  have h1 : 1 ≤ items.length := by omega
  exact (buildIit_facts items h1).2.1 i j hij hj

theorem buildIit_ub (items : List (Int × Int)) :
    ∀ t, t < (buildIit items).length → ∀ m, m < (buildIit items).length →
      inSubtree t m → (nd (buildIit items) m).endp
        ≤ (nd (buildIit items) t).inside_max_end := by
  intro t ht m hm hin
  rw [length_buildIit] at ht hm
  have h1 : 1 ≤ items.length := by omega
  exact ((buildIit_facts items h1).2.2.1 t ht).1 m (by
      rw [length_buildIit]; exact hm) hin.1 hin.2

/-- Membership characterization of the iitii query for any prediction the
model can produce. -/
theorem iitiiOverlap_mem (items : List (Int × Int)) (pred : Option Nat)
    (hpred : ∀ p, pred = some p → p < (buildIitii items).length)
    (qbeg qend : Int) (r : Nat) :
    r ∈ (iitiiOverlapP (buildIitii items) pred qbeg qend).2 ↔
      (r < (buildIitii items).length ∧ (nd (buildIitii items) r).beg < qend ∧
       qbeg < (nd (buildIitii items) r).endp) := by
  have hsort := buildIitii_sorted items
  have hub := buildIitii_ub items
  cases pred with
  | none => exact iitOverlap_mem _ hsort hub qbeg qend r
  | some p =>
    have hpN : p < (buildIitii items).length := hpred p rfl
    have hN : 1 ≤ (buildIitii items).length := by omega
    have hNi : 1 ≤ items.length := by
      have := length_buildIitii items
      omega
    have hlen : (buildIitii items).length = items.length := length_buildIitii items
    have hfsp : p < fullSize (buildIitii items).length := by
      have := fullSize_ge (buildIitii items).length
      omega
    obtain ⟨e1, e2, e3, e4, e5⟩ := climbGo_spec (buildIitii items) qbeg qend hN
      (rootLevel (buildIitii items).length - level p) p (level p) rfl hfsp rfl
    show r ∈ (scanGo (buildIitii items) qbeg qend
        (climbGo (buildIitii items) (rootRank (buildIitii items).length) qbeg qend
          (rootLevel (buildIitii items).length - level p) p (level p)).2
        (climbGo (buildIitii items) (rootRank (buildIitii items).length) qbeg qend
          (rootLevel (buildIitii items).length - level p) p (level p)).1).2 ↔ _
    rw [scanGo_mem (buildIitii items) hsort hub qbeg qend _ _ e1 r]
    constructor
    · rintro ⟨_, _, g3, g4, g5⟩
      exact ⟨g3, g4, g5⟩
    · rintro ⟨g1, g2, g3⟩
      rcases e5 with hroot | hstop
      · rw [hroot]
        have h1 := sHi_rootRank (buildIitii items).length hN
        have h2 := fullSize_ge (buildIitii items).length
        have h3 := sLo_rootRank (buildIitii items).length
        exact ⟨by omega, by omega, g1, g2, g3⟩
      · simp only [climbCond, Bool.or_eq_false_iff, decide_eq_false_iff_not] at hstop
        obtain ⟨⟨d1, d2⟩, d3⟩ := hstop
        push_neg at d1 d2 d3
        have hin : inSubtree
            (climbGo (buildIitii items) (rootRank (buildIitii items).length) qbeg qend
              (rootLevel (buildIitii items).length - level p) p (level p)).1 r := by
          by_contra hout
          rcases lt_or_ge (nd (buildIitii items) r).beg
              (nd (buildIitii items)
                (climbGo (buildIitii items) (rootRank (buildIitii items).length) qbeg qend
                  (rootLevel (buildIitii items).length - level p) p (level p)).1).beg
              with hlt | hge
          · have := ((buildIitii_facts items hNi).2.2.2 _ (by omega)).1 r (by omega) hout hlt
            omega
          · have := outsideMinBeg_le (buildIitii items) hsort _ _ e1 (by omega) r
              (by omega) hout hge
            omega
        exact ⟨hin.1, hin.2, g1, g2, g3⟩

theorem iitOverlap_nodup (ns : List Node)
    (hsort : ∀ i j, i ≤ j → j < ns.length → (nd ns i).beg ≤ (nd ns j).beg)
    (hub : ∀ t, t < ns.length → ∀ m, m < ns.length → inSubtree t m →
      (nd ns m).endp ≤ (nd ns t).inside_max_end) (qbeg qend : Int) :
    (iitOverlap ns qbeg qend).2.Nodup := by
  have hp := scanGo_pairwise ns hsort hub qbeg qend (rootLevel ns.length)
    (rootRank ns.length) (level_rootRank _)
  exact List.Pairwise.imp (fun h => Nat.ne_of_lt h) hp

theorem iitiiOverlap_nodup (items : List (Int × Int)) (pred : Option Nat)
    (hpred : ∀ p, pred = some p → p < (buildIitii items).length) (qbeg qend : Int) :
    (iitiiOverlapP (buildIitii items) pred qbeg qend).2.Nodup := by
  have hsort := buildIitii_sorted items
  have hub := buildIitii_ub items
  cases pred with
  | none => exact iitOverlap_nodup _ hsort hub qbeg qend
  | some p =>
    have hpN : p < (buildIitii items).length := hpred p rfl
    have hN : 1 ≤ (buildIitii items).length := by omega
    have hfsp : p < fullSize (buildIitii items).length := by
      have := fullSize_ge (buildIitii items).length
      omega
    obtain ⟨e1, _, _, _, _⟩ := climbGo_spec (buildIitii items) qbeg qend hN
      (rootLevel (buildIitii items).length - level p) p (level p) rfl hfsp rfl
    have hp := scanGo_pairwise (buildIitii items) hsort hub qbeg qend _ _ e1
    exact List.Pairwise.imp (fun h => Nat.ne_of_lt h) hp

/-- Fields shared by the two builds: the iitii array is the iit array with
`outside_max_end` filled in. -/
theorem build_agree (items : List (Int × Int)) (i : Nat) :
    (nd (buildIitii items) i).beg = (nd (buildIit items) i).beg ∧
    (nd (buildIitii items) i).endp = (nd (buildIit items) i).endp ∧
    (nd (buildIitii items) i).inside_max_end = (nd (buildIit items) i).inside_max_end := by
  rw [buildIitii_eq]
  exact fillOutside_fields (buildIit items) i

/-! ### The claims -/

/-- **C1.** For every built index (iit or iitii) and every query
`[qbeg, qend)`, `overlap` returns, as an unordered duplicate-free set of
references (ranks) into the node array, exactly the set of nodes `n` with
`beg(n) < qend` and `end(n) > qbeg`; for iitii this holds for every
prediction the model can produce (`none` = `nrank`, or any real rank). -/
theorem overlap_query_exact (items : List (Int × Int)) (pred : Option Nat)
    (hpred : ∀ p, pred = some p → p < (buildIitii items).length) (qbeg qend : Int) :
    (∀ r, r ∈ (iitOverlap (buildIit items) qbeg qend).2 ↔
      (r < (buildIit items).length ∧ (nd (buildIit items) r).beg < qend ∧
        qbeg < (nd (buildIit items) r).endp)) ∧
    (iitOverlap (buildIit items) qbeg qend).2.Nodup ∧
    (∀ r, r ∈ (iitiiOverlapP (buildIitii items) pred qbeg qend).2 ↔
      (r < (buildIitii items).length ∧ (nd (buildIitii items) r).beg < qend ∧
        qbeg < (nd (buildIitii items) r).endp)) ∧
    (iitiiOverlapP (buildIitii items) pred qbeg qend).2.Nodup :=
  ⟨fun r => iitOverlap_mem _ (buildIit_sorted items) (buildIit_ub items) qbeg qend r,
   iitOverlap_nodup _ (buildIit_sorted items) (buildIit_ub items) qbeg qend,
   fun r => iitiiOverlap_mem items pred hpred qbeg qend r,
   iitiiOverlap_nodup items pred hpred qbeg qend⟩

/-- Witness for C1 at the header's own usage example
(`(12,34),(0,23),(34,56)`, query `(22,25)`). -/
theorem overlap_query_exact_witness :
    1 ∈ (iitiiOverlapP (buildIitii [(12,34),(0,23),(34,56)]) (some 0) 22 25).2 ∧
    0 ∈ (iitOverlap (buildIit [(12,34),(0,23),(34,56)]) 22 25).2 := by
  have h := overlap_query_exact [(12,34),(0,23),(34,56)] (some 0)
    (by intro p hp; cases hp; decide) 22 25
  exact ⟨(h.2.2.1 1).mpr (by decide), (h.1 0).mpr (by decide)⟩

/-- **C2.** For every item set and every query, the plain iit overlap
(root-start top-down scan) and the iitii overlap (predict, climb, scan)
return the same set of items, for every prediction the model can produce. -/
theorem overlap_equivalence (items : List (Int × Int)) (pred : Option Nat)
    (hpred : ∀ p, pred = some p → p < (buildIitii items).length) (qbeg qend : Int) :
    ∀ r, r ∈ (iitiiOverlapP (buildIitii items) pred qbeg qend).2 ↔
      r ∈ (iitOverlap (buildIit items) qbeg qend).2 := by
  intro r
  rw [iitiiOverlap_mem items pred hpred qbeg qend r,
      iitOverlap_mem _ (buildIit_sorted items) (buildIit_ub items) qbeg qend r]
  have hl : (buildIitii items).length = (buildIit items).length := by
    rw [length_buildIitii, length_buildIit]
  have hb := build_agree items r
  rw [hl, hb.1, hb.2.1]

/-- Witness for C2. -/
theorem overlap_equivalence_witness :
    1 ∈ (iitOverlap (buildIit [(12,34),(0,23),(34,56)]) 22 25).2 := by
  have h := overlap_equivalence [(12,34),(0,23),(34,56)] (some 2)
    (by intro p hp; cases hp; decide) 22 25
  exact (h 1).mp (by decide)

/-- **C3.** When the iitii climb stops at a real node `s` below the root
because both climb conditions fail (`outside_max_end s ≤ qbeg` and
`qend ≤ outside_min_beg s k`), every node outside `s`'s subtree either has
smaller `beg` and `end ≤ qbeg`, or has `beg ≥ beg s` and `beg ≥ qend`; hence
every node overlapping the query lies inside `s`'s subtree, and scanning
that subtree yields the complete result. -/
theorem climb_stop_complete (items : List (Int × Int)) (s k : Nat) (qbeg qend : Int)
    (hs : s < (buildIitii items).length) (hlev : level s = k)
    (hroot : s ≠ rootRank (buildIitii items).length)
    (h1 : (nd (buildIitii items) s).outside_max_end ≤ qbeg)
    (h2 : qend ≤ outsideMinBeg (buildIitii items) s k) :
    (∀ m, m < (buildIitii items).length → ¬ inSubtree s m →
      ((nd (buildIitii items) m).beg < (nd (buildIitii items) s).beg ∧
        (nd (buildIitii items) m).endp ≤ qbeg) ∨
      ((nd (buildIitii items) s).beg ≤ (nd (buildIitii items) m).beg ∧
        qend ≤ (nd (buildIitii items) m).beg)) ∧
    (∀ m, m < (buildIitii items).length → (nd (buildIitii items) m).beg < qend →
      qbeg < (nd (buildIitii items) m).endp → inSubtree s m) ∧
    (∀ x, x ∈ (scanGo (buildIitii items) qbeg qend k s).2 ↔
      (x < (buildIitii items).length ∧ (nd (buildIitii items) x).beg < qend ∧
        qbeg < (nd (buildIitii items) x).endp)) := by
  have hleq := length_buildIitii items
  have hNi : 1 ≤ items.length := by omega
  have hsort := buildIitii_sorted items
  have hub := buildIitii_ub items
  have hsi : s < items.length := by omega
  have part1 : ∀ m, m < (buildIitii items).length → ¬ inSubtree s m →
      ((nd (buildIitii items) m).beg < (nd (buildIitii items) s).beg ∧
        (nd (buildIitii items) m).endp ≤ qbeg) ∨
      ((nd (buildIitii items) s).beg ≤ (nd (buildIitii items) m).beg ∧
        qend ≤ (nd (buildIitii items) m).beg) := by
    intro m hm hout
    rcases lt_or_ge (nd (buildIitii items) m).beg (nd (buildIitii items) s).beg
        with hlt | hge
    · left
      refine ⟨hlt, ?_⟩
      have := ((buildIitii_facts items hNi).2.2.2 s hsi).1 m (by omega) hout hlt
      omega
    · right
      have := outsideMinBeg_le (buildIitii items) hsort s k hlev hs m hm hout hge
      exact ⟨hge, by omega⟩
  have part2 : ∀ m, m < (buildIitii items).length →
      (nd (buildIitii items) m).beg < qend →
      qbeg < (nd (buildIitii items) m).endp → inSubtree s m := by
    intro m hm hb he
    by_contra hout
    rcases part1 m hm hout with ⟨_, hle⟩ | ⟨_, hge⟩
    · omega
    · omega
  refine ⟨part1, part2, ?_⟩
  intro x
  rw [scanGo_mem (buildIitii items) hsort hub qbeg qend k s hlev x]
  constructor
  · rintro ⟨_, _, g3, g4, g5⟩
    exact ⟨g3, g4, g5⟩
  · rintro ⟨g1, g2, g3⟩
    have := part2 x g1 g2 g3
    exact ⟨this.1, this.2, g1, g2, g3⟩

/-- Witness for C3: three separated items, climb stopped at leaf 0 for the
query `[0, 5)`. -/
theorem climb_stop_complete_witness :
    0 ∈ (scanGo (buildIitii [(0,1),(10,11),(20,21)]) 0 5 0 0).2 := by
  have h := climb_stop_complete [(0,1),(10,11),(20,21)] 0 0 0 5 (by decide) (by decide)
    (by decide) (by decide) (by decide)
  exact (h.2.2 0).mpr (by decide)

/-- **C4.** After construction of either index, for every real node `r` and
every real node `m` of `r`'s subtree, `end(m) ≤ inside_max_end(r)`, and
`inside_max_end(r)` is attained at some real node of the subtree (possibly
`r` itself); `N` need not be a power of two. -/
theorem inside_max_end_exact (items : List (Int × Int)) (r : Nat)
    (hr : r < items.length) :
    ((∀ m, m < items.length → inSubtree r m →
        (nd (buildIit items) m).endp ≤ (nd (buildIit items) r).inside_max_end) ∧
      (∃ m, m < items.length ∧ inSubtree r m ∧
        (nd (buildIit items) r).inside_max_end = (nd (buildIit items) m).endp)) ∧
    ((∀ m, m < items.length → inSubtree r m →
        (nd (buildIitii items) m).endp ≤ (nd (buildIitii items) r).inside_max_end) ∧
      (∃ m, m < items.length ∧ inSubtree r m ∧
        (nd (buildIitii items) r).inside_max_end = (nd (buildIitii items) m).endp)) := by
  have hNi : 1 ≤ items.length := by omega
  have h1 := (buildIit_facts items hNi).2.2.1 r hr
  have h2 := (buildIitii_facts items hNi).2.2.1 r hr
  have hl1 := length_buildIit items
  have hl2 := length_buildIitii items
  constructor
  · obtain ⟨hub, w, hw, g1, g2, g3⟩ := h1
    exact ⟨fun m hm hin => hub m (by omega) hin.1 hin.2, w, by omega, ⟨g1, g2⟩, g3⟩
  · obtain ⟨hub, w, hw, g1, g2, g3⟩ := h2
    exact ⟨fun m hm hin => hub m (by omega) hin.1 hin.2, w, by omega, ⟨g1, g2⟩, g3⟩

/-- Witness for C4. -/
theorem inside_max_end_exact_witness :
    (nd (buildIit [(12,34),(0,23),(34,56)]) 0).endp
      ≤ (nd (buildIit [(12,34),(0,23),(34,56)]) 1).inside_max_end := by
  have h := inside_max_end_exact [(12,34),(0,23),(34,56)] 1 (by decide)
  exact h.1.1 0 (by decide) (by decide)

/-- **C5.** After iitii construction, `outside_max_end(r)` is exactly the
maximum `end` over real nodes outside `r`'s subtree with `beg` strictly
below `beg(r)` (upper bound and attainment), and it is the
negative-infinity sentinel when no such node exists — in particular
whenever `leftmost_leaf(r) = 0`. -/
theorem outside_max_end_exact (items : List (Int × Int)) (r : Nat)
    (hr : r < items.length) :
    (∀ m, m < items.length → ¬ inSubtree r m →
      (nd (buildIitii items) m).beg < (nd (buildIitii items) r).beg →
      (nd (buildIitii items) m).endp ≤ (nd (buildIitii items) r).outside_max_end) ∧
    ((∃ m, m < items.length ∧ ¬ inSubtree r m ∧
        (nd (buildIitii items) m).beg < (nd (buildIitii items) r).beg) →
      ∃ m, m < items.length ∧ ¬ inSubtree r m ∧
        (nd (buildIitii items) m).beg < (nd (buildIitii items) r).beg ∧
        (nd (buildIitii items) r).outside_max_end = (nd (buildIitii items) m).endp) ∧
    ((∀ m, m < items.length → ¬ inSubtree r m →
        ¬ ((nd (buildIitii items) m).beg < (nd (buildIitii items) r).beg)) →
      (nd (buildIitii items) r).outside_max_end = PMIN) ∧
    (lml r (level r) = 0 → (nd (buildIitii items) r).outside_max_end = PMIN) := by
  have hNi : 1 ≤ items.length := by omega
  have h := (buildIitii_facts items hNi).2.2.2 r hr
  refine ⟨h.1, h.2.1, h.2.2, ?_⟩
  intro h0
  apply h.2.2
  intro m hm hout hblt
  have hleq := length_buildIitii items
  have := ((outside_lt_iff (buildIitii items) (buildIitii_sorted items) r m
    (by omega)).mp ⟨hout, hblt⟩).1
  have hll : lml r (level r) = sLo r := rfl
  omega

/-- Witness for C5. -/
theorem outside_max_end_exact_witness :
    (nd (buildIitii [(12,34),(0,23),(34,56)]) 0).endp
      ≤ (nd (buildIitii [(12,34),(0,23),(34,56)]) 2).outside_max_end := by
  have h := outside_max_end_exact [(12,34),(0,23),(34,56)] 2 (by decide)
  exact h.1 0 (by decide) (by decide) (by decide)

/-- **C6 counterexample.** On an index of three equal-`beg` items, at the
rightmost real leaf `r = 2` (level `k = 0`) we have
`rightmost_leaf(r,k) + 1 ≥ N`, yet `outside_min_beg` is `beg(r) = 5`, not
`+∞`: the shared-`beg` corner case takes precedence over the
imaginary-right-edge corner case, contrary to the claim's reading. -/
theorem outside_min_beg_cex :
    2 < (buildIitii [(5,6),(5,7),(5,8)]).length ∧
    level 2 = 0 ∧
    (buildIitii [(5,6),(5,7),(5,8)]).length ≤ rml 2 0 + 1 ∧
    outsideMinBeg (buildIitii [(5,6),(5,7),(5,8)]) 2 0 = 5 ∧
    outsideMinBeg (buildIitii [(5,6),(5,7),(5,8)]) 2 0 ≠ PMAX := by decide

/-- **C6 (amended).** `outside_min_beg(r,k)` equals the minimum `beg` over
real nodes outside `r`'s subtree with `beg ≥ beg(r)` (`+∞ = PMAX` when that
set is empty), with the two corner cases ordered as in the code: if the
node immediately left of `leftmost_leaf(r,k)` shares `beg(r)`, the answer is
`beg(r)` — even when `rightmost_leaf(r,k) + 1 ≥ N`; only otherwise does
`rightmost_leaf(r,k) + 1 ≥ N` produce `+∞`. -/
theorem outside_min_beg_exact (items : List (Int × Int)) (s k : Nat)
    (hs : s < items.length) (hlev : level s = k) :
    (∀ m, m < items.length → ¬ inSubtree s m →
      (nd (buildIitii items) s).beg ≤ (nd (buildIitii items) m).beg →
      outsideMinBeg (buildIitii items) s k ≤ (nd (buildIitii items) m).beg) ∧
    ((∃ m, m < items.length ∧ ¬ inSubtree s m ∧
        (nd (buildIitii items) s).beg ≤ (nd (buildIitii items) m).beg) →
      ∃ m, m < items.length ∧ ¬ inSubtree s m ∧
        (nd (buildIitii items) s).beg ≤ (nd (buildIitii items) m).beg ∧
        outsideMinBeg (buildIitii items) s k = (nd (buildIitii items) m).beg) ∧
    ((∀ m, m < items.length → ¬ inSubtree s m →
        ¬ ((nd (buildIitii items) s).beg ≤ (nd (buildIitii items) m).beg)) →
      outsideMinBeg (buildIitii items) s k = PMAX) ∧
    (0 < lml s k ∧
        (nd (buildIitii items) (lml s k - 1)).beg = (nd (buildIitii items) s).beg →
      outsideMinBeg (buildIitii items) s k = (nd (buildIitii items) s).beg) ∧
    (¬ (0 < lml s k ∧
        (nd (buildIitii items) (lml s k - 1)).beg = (nd (buildIitii items) s).beg) →
      items.length ≤ rml s k + 1 →
      outsideMinBeg (buildIitii items) s k = PMAX) := by
  have hleq := length_buildIitii items
  have hsB : s < (buildIitii items).length := by omega
  have hsort := buildIitii_sorted items
  have hle := outsideMinBeg_le (buildIitii items) hsort s k hlev hsB
  have hatt := outsideMinBeg_attained (buildIitii items) hsort s k hlev hsB
  refine ⟨?_, ?_, ?_, ?_, ?_⟩
  · intro m hm hout hge
    exact hle m (by omega) hout hge
  · rintro ⟨m, hm, g1, g2⟩
    obtain ⟨w, hw, e1, e2, e3⟩ := hatt.1 ⟨m, by omega, g1, g2⟩
    exact ⟨w, by omega, e1, e2, e3⟩
  · intro hemp
    exact hatt.2 (fun m hm hout => hemp m (by omega) hout)
  · intro hc
    unfold outsideMinBeg
    rw [if_pos hc]
  · intro hc hN
    unfold outsideMinBeg
    rw [if_neg hc, if_neg (by omega)]

/-- Witness for C6's amended statement, at the counterexample's index. -/
theorem outside_min_beg_exact_witness :
    outsideMinBeg (buildIitii [(5,6),(5,7),(5,8)]) 2 0
      = (nd (buildIitii [(5,6),(5,7),(5,8)]) 2).beg := by
  have h := outside_min_beg_exact [(5,6),(5,7),(5,8)] 2 0 (by decide) (by decide)
  exact h.2.2.2.1 (by decide)

/-- **C7.** The level-rank round trip: for every rank,
`rank_of_levelrank (level r) (levelrank_of_rank r) = r`. -/
theorem levelrank_round_trip (r : Nat) :
    rank_of_levelrank (level r) (levelrank_of_rank r) = r := by
  have hd := level_decomp r (level r) rfl
  set k := level r with hk
  set q := r / 2 ^ (k + 1) with hq
  have hpos := two_pow_pos k
  have e1 : (2:Nat) ^ (k + 1) * q = 2 ^ k * (2 * q) := by ring
  have e2 : (2:Nat) ^ k * (2 * q + 1) = 2 ^ k * (2 * q) + 2 ^ k := by ring
  have h1 : r + 1 = 2 ^ k * (2 * q + 1) := by omega
  have h2 : levelrank_of_rank r = q := by
    unfold levelrank_of_rank
    rw [← hk, h1, Nat.mul_div_cancel_left _ hpos]
    omega
  unfold rank_of_levelrank
  rw [h2]
  omega

/-- **C8 counterexample.** The single item `(7,9)` with the zero-width query
`(8,8)` (`qbeg ≥ qend`): both query paths return the node, not the empty
set, because `beg = 7 < 8 = qend` and `end = 9 > 8 = qbeg`. -/
theorem degenerate_query_cex :
    (8:Int) ≥ 8 ∧
    (iitOverlap (buildIit [(7,9)]) 8 8).2 ≠ [] ∧
    (iitiiOverlapP (buildIitii [(7,9)]) (some 0) 8 8).2 ≠ [] := by decide

/-- **C8 (amended).** For a query with `qbeg ≥ qend`, both paths return —
with no special-casing — exactly the guard set
`{n : beg n < qend ∧ end n > qbeg}` (the nodes whose intervals strictly span
`[qend, qbeg]`); the result is empty only when that set is. -/
theorem degenerate_query_exact (items : List (Int × Int)) (pred : Option Nat)
    (hpred : ∀ p, pred = some p → p < (buildIitii items).length) (qbeg qend : Int)
    (hq : qend ≤ qbeg) :
    (∀ r, r ∈ (iitOverlap (buildIit items) qbeg qend).2 ↔
      (r < (buildIit items).length ∧ (nd (buildIit items) r).beg < qend ∧
        qbeg < (nd (buildIit items) r).endp)) ∧
    (∀ r, r ∈ (iitiiOverlapP (buildIitii items) pred qbeg qend).2 ↔
      (r < (buildIitii items).length ∧ (nd (buildIitii items) r).beg < qend ∧
        qbeg < (nd (buildIitii items) r).endp)) :=
  ⟨fun r => iitOverlap_mem _ (buildIit_sorted items) (buildIit_ub items) qbeg qend r,
   fun r => iitiiOverlap_mem items pred hpred qbeg qend r⟩

/-- Witness for C8's amended statement. -/
theorem degenerate_query_exact_witness :
    0 ∈ (iitOverlap (buildIit [(7,9)]) 8 8).2 := by
  have h := degenerate_query_exact [(7,9)] none (by intro p hp; cases hp) 8 8 (by decide)
  exact (h.1 0).mpr (by decide)

/-- **C9.** An index built from zero items returns the empty result for
every query with cost 0 or 1, on both paths (on an empty index the model is
untrained, so `predict` always returns `nrank` and the fallback applies). -/
theorem empty_index_query (qbeg qend : Int) :
    (iitOverlap (buildIit []) qbeg qend).2 = [] ∧
    ((iitOverlap (buildIit []) qbeg qend).1 = 0 ∨
      (iitOverlap (buildIit []) qbeg qend).1 = 1) ∧
    (iitiiOverlapP (buildIitii []) none qbeg qend).2 = [] ∧
    ((iitiiOverlapP (buildIitii []) none qbeg qend).1 = 0 ∨
      (iitiiOverlapP (buildIitii []) none qbeg qend).1 = 1) :=
  ⟨rfl, Or.inr rfl, rfl, Or.inr rfl⟩

/-- **C10.** The climb loop of `iitii::overlap` terminates for every query
on every built index: each iteration moves to the parent, whose level is one
higher, so with fuel `root_level - level(prediction)` the loop reaches a
state where the guard is false (at the root or earlier), and extra fuel
changes nothing — the C++ `while` loop stops after at most
`root_level - level(prediction)` iterations. -/
theorem climb_terminates (items : List (Int × Int)) (qbeg qend : Int) (p : Nat)
    (hp : p < (buildIitii items).length) :
    level (climbGo (buildIitii items) (rootRank (buildIitii items).length) qbeg qend
        (rootLevel (buildIitii items).length - level p) p (level p)).1
      = (climbGo (buildIitii items) (rootRank (buildIitii items).length) qbeg qend
          (rootLevel (buildIitii items).length - level p) p (level p)).2 ∧
    level p ≤ (climbGo (buildIitii items) (rootRank (buildIitii items).length) qbeg qend
        (rootLevel (buildIitii items).length - level p) p (level p)).2 ∧
    (climbGo (buildIitii items) (rootRank (buildIitii items).length) qbeg qend
        (rootLevel (buildIitii items).length - level p) p (level p)).2
      ≤ rootLevel (buildIitii items).length ∧
    ((climbGo (buildIitii items) (rootRank (buildIitii items).length) qbeg qend
        (rootLevel (buildIitii items).length - level p) p (level p)).1
      = rootRank (buildIitii items).length ∨
      climbCond (buildIitii items) qbeg qend
        (climbGo (buildIitii items) (rootRank (buildIitii items).length) qbeg qend
          (rootLevel (buildIitii items).length - level p) p (level p)).1
        (climbGo (buildIitii items) (rootRank (buildIitii items).length) qbeg qend
          (rootLevel (buildIitii items).length - level p) p (level p)).2 = false) ∧
    (∀ extra, climbGo (buildIitii items) (rootRank (buildIitii items).length) qbeg qend
        (rootLevel (buildIitii items).length - level p + extra) p (level p)
      = climbGo (buildIitii items) (rootRank (buildIitii items).length) qbeg qend
          (rootLevel (buildIitii items).length - level p) p (level p)) := by
  have hN : 1 ≤ (buildIitii items).length := by omega
  have hfs : p < fullSize (buildIitii items).length := by
    have := fullSize_ge (buildIitii items).length
    omega
  obtain ⟨e1, e2, e3, e4, e5⟩ := climbGo_spec (buildIitii items) qbeg qend hN
    (rootLevel (buildIitii items).length - level p) p (level p) rfl hfs rfl
  exact ⟨e1, e3, e4, e5,
    fun extra => climbGo_stable (buildIitii items) qbeg qend hN
      (rootLevel (buildIitii items).length - level p) p (level p) extra rfl hfs rfl⟩

/-- Witness for C10. -/
theorem climb_terminates_witness :
    level (climbGo (buildIitii [(0,1),(10,11),(20,21)])
        (rootRank (buildIitii [(0,1),(10,11),(20,21)]).length) 0 5
        (rootLevel (buildIitii [(0,1),(10,11),(20,21)]).length - level 2) 2 (level 2)).1
      = (climbGo (buildIitii [(0,1),(10,11),(20,21)])
          (rootRank (buildIitii [(0,1),(10,11),(20,21)]).length) 0 5
          (rootLevel (buildIitii [(0,1),(10,11),(20,21)]).length - level 2) 2 (level 2)).2 :=
  (climb_terminates [(0,1),(10,11),(20,21)] 0 5 2 (by decide)).1

end Iitii
